import Mathlib

/-! Stream framing of yggdrasil (`src/yggdrasil/stream.go`)

A shallow embedding of the message-framing layer: the framing codec
`stream_chopMsg`, the read loop `stream.readMsg`, the write loop
`stream.writeMsg` and the metadata pass-through `_sendMetaBytes` and
`_recvMetaBytes`, followed by the properties proved about them.

Modelling conventions
* A Go `[]byte` is a `List Byte`; a `nil` slice result is `none`.
* A Go `error` is `Option Error`, `none` being `nil`.
* The connection `rwc` is an `io.ReadWriteCloser` that the file only calls.
  A run is described by the results its successive `Read` and `Write` calls
  give (`Conn.reads`, `Conn.writes`); the bytes the connection accepted are
  logged in `Conn.written`.  A loop that needs one more call than the run
  describes has no result (`none`).
* The length codec (`wire_put_uint64`, `wire_decode_uint64`) lives in another
  file of the package and is a parameter, `WireCodec`.
-/

namespace Yggdrasil

/-- A Go `byte`. -/
abbrev Byte := UInt8

/-- The error values that flow through the stream code. -/
inductive Error where
  /-- `errors.New("bad message")` -/
  | badMessage
  /-- `errors.New("oversized message")` -/
  | oversizedMessage
  /-- `fmt.Errorf("message error: %v", err)` -/
  | messageError (inner : Error)
  /-- An error value returned by the connection, told apart by a code. -/
  | transport (code : Nat)
  deriving DecidableEq, Repr

/-- `const streamMsgSize = 2048 + 65535` -/
def streamMsgSize : Nat := 2048 + 65535

/-- `var streamMsg = [...]byte{0xde, 0xad, 0xb1, 0x75}` -/
def streamMsg : List Byte := [0xde, 0xad, 0xb1, 0x75]

/-- Modelled from the spec: the variable-length unsigned-integer codec of
`wire.go`, which is not among the sources.  `wire_put_uint64 v out` returns
the slice to which `writeMsg` goes on appending; `wire_decode_uint64 bs` is the
pair (value, number of bytes used), the number being a count and so a `Nat`.
The statements below say which laws of the codec they rely on. -/
structure WireCodec where
  wire_put_uint64 : Nat → List Byte → List Byte
  wire_decode_uint64 : List Byte → Nat × Nat

/-- The bytes `wire_put_uint64` produces for `v` on an empty slice. -/
def WireCodec.encode (c : WireCodec) (v : Nat) : List Byte :=
  c.wire_put_uint64 v []

/-- The three results of `stream_chopMsg` together with the value of `*bs`
after the call. -/
structure ChopResult where
  msg : Option (List Byte)
  ok : Bool
  err : Option Error
  bs : List Byte
  deriving DecidableEq, Repr

/-- The loop `for idx := range streamMsg` of `stream_chopMsg`: `true` when
`(*bs)[idx] != streamMsg[idx]` at some index `idx` of `streamMsg`. -/
def magicMismatch (bs : List Byte) : Bool :=
  (List.range streamMsg.length).any fun idx => bs.get? idx != streamMsg.get? idx

/-- `func stream_chopMsg(bs *[]byte) ([]byte, bool, error)` -/
def stream_chopMsg (c : WireCodec) (bs : List Byte) : ChopResult :=
  if bs.length < streamMsg.length then
    ⟨none, false, none, bs⟩
  else if magicMismatch bs then
    ⟨none, false, some Error.badMessage, bs⟩
  else
    let r := c.wire_decode_uint64 (bs.drop streamMsg.length)
    let msgLen := r.1
    let msgLenLen := r.2
    if msgLen > streamMsgSize then
      ⟨none, false, some Error.oversizedMessage, bs⟩
    else
      let msgBegin := streamMsg.length + msgLenLen
      let msgEnd := msgBegin + msgLen
      if msgLenLen == 0 || bs.length < msgEnd then
        ⟨none, false, none, bs⟩
      else
        ⟨some ((bs.take msgEnd).drop msgBegin), true, none, bs.drop msgEnd⟩

/-- The outcome of one `rwc.Read(s.frag[:])`: the bytes `s.frag[:n]` it
delivered (so `n = data.length`) and the error it returned.  A reader that
keeps to `n ≤ len(s.frag)` delivers at most `2 * streamMsgSize` bytes per
call; nothing below depends on that bound. -/
structure ReadResult where
  data : List Byte
  err : Option Error
  deriving DecidableEq, Repr

/-- The outcome of one `rwc.Write(p)`: the count `n` and the error.  The
bytes accepted are the first `n` bytes of `p`. -/
structure WriteResult where
  n : Nat
  err : Option Error
  deriving DecidableEq, Repr

/-- The connection `rwc`: the results of the `Read` and `Write` calls still to
come, and the bytes accepted by the `Write` calls made so far. -/
structure Conn where
  reads : List ReadResult
  writes : List WriteResult
  written : List Byte
  deriving DecidableEq, Repr

/-- `type stream struct`: the connection and the accumulation buffer.  The
scratch arrays `frag` and `outputBuffer` carry no state between calls. -/
structure stream where
  rwc : Conn
  inputBuffer : List Byte
  deriving DecidableEq, Repr

/-- `util.GetBytes()`: an empty buffer ready for appending. -/
def GetBytes : List Byte := []

/-- The `for` loop of `readMsg`, run on the `Read` results `reads` with
accumulation buffer `inputBuffer`; `rwc` supplies the untouched write side. -/
def readMsgLoop (c : WireCodec) (rwc : Conn) :
    List ReadResult → List Byte → Option ((Option (List Byte) × Option Error) × stream)
  | reads, inputBuffer =>
    let r := stream_chopMsg c inputBuffer
    match r.err with
    | some err =>
      some ((none, some (Error.messageError err)), ⟨{ rwc with reads := reads }, inputBuffer⟩)
    | none =>
      if r.ok then
        some ((some (GetBytes ++ r.msg.getD []), none), ⟨{ rwc with reads := reads }, r.bs⟩)
      else
        match reads with
        | [] => none
        | rd :: rest =>
          if rd.data.length > 0 then
            readMsgLoop c rwc rest (inputBuffer ++ rd.data)
          else if rd.err ≠ none then
            some ((none, rd.err), ⟨{ rwc with reads := rest }, inputBuffer⟩)
          else
            readMsgLoop c rwc rest inputBuffer

/-- `func (s *stream) readMsg() ([]byte, error)`: the returned pair and the
stream afterwards, or `none` when the run ends before the call returns. -/
def stream.readMsg (c : WireCodec) (s : stream) :
    Option ((Option (List Byte) × Option Error) × stream) :=
  readMsgLoop c s.rwc s.rwc.reads s.inputBuffer

/-- The loop `for bn < len(buf)` of `writeMsg`, run on the `Write` results
`writes` from offset `bn`, with `written` the bytes accepted so far. -/
def writeMsgLoop (rwc : Conn) (inputBuffer : List Byte) (buf : List Byte) (padLen lenBs : Nat) :
    List WriteResult → Nat → List Byte → Option ((Int × Option Error) × stream)
  | writes, bn, written =>
    if bn < buf.length then
      match writes with
      | [] => none
      | w :: rest =>
        let written := written ++ (buf.drop bn).take w.n
        let bn := bn + w.n
        match w.err with
        | some err =>
          let l : Int := (bn : Int) - (padLen : Int)
          let l := if l < 0 then 0 else l
          some ((l, some err), ⟨{ rwc with writes := rest, written := written }, inputBuffer⟩)
        | none => writeMsgLoop rwc inputBuffer buf padLen lenBs rest bn written
    else
      some (((lenBs : Int), none), ⟨{ rwc with writes := writes, written := written }, inputBuffer⟩)

/-- `func (s *stream) writeMsg(bs []byte) (int, error)`: the returned pair and
the stream afterwards, or `none` when the run ends before the call returns. -/
def stream.writeMsg (c : WireCodec) (s : stream) (bs : List Byte) :
    Option ((Int × Option Error) × stream) :=
  let buf : List Byte := []
  let buf := buf ++ streamMsg
  let buf := c.wire_put_uint64 bs.length buf
  let padLen := buf.length
  let buf := buf ++ bs
  writeMsgLoop s.rwc s.inputBuffer buf padLen bs.length s.rwc.writes 0 s.rwc.written

/-- `k` successive `readMsg` calls on one stream: the pairs they return, in
order, and the stream afterwards. -/
def stream.readMsgs (c : WireCodec) : Nat → stream →
    Option (List (Option (List Byte) × Option Error) × stream)
  | 0, s => some ([], s)
  | k + 1, s =>
    match s.readMsg c with
    | none => none
    | some (r, s1) =>
      match stream.readMsgs c k s1 with
      | none => none
      | some (rs, s2) => some (r :: rs, s2)

/-- The wire frame of payload `p`: magic, encoded length, payload. -/
def frame (c : WireCodec) (p : List Byte) : List Byte :=
  [0xde, 0xad, 0xb1, 0x75] ++ c.encode p.length ++ p

/-- `Read` results that deliver the given chunks, one per call, without error. -/
def deliver (chunks : List (List Byte)) : List ReadResult :=
  chunks.map fun d => ⟨d, none⟩

/-- The codec contract the framing relies on, for the lengths a frame may
carry: `wire_put_uint64` appends the encoding to its argument, and decoding an
encoding followed by anything gives back the value and the encoding's length. -/
structure WireCodec.RoundTrip (c : WireCodec) : Prop where
  put_append : ∀ v out, c.wire_put_uint64 v out = out ++ c.encode v
  decode_encode : ∀ n rest, n ≤ streamMsgSize →
    c.wire_decode_uint64 (c.encode n ++ rest) = (n, (c.encode n).length)

/-- What the decoder does on a length encoding that has only partly arrived:
the value it reports is within the size cap, and either it reports that it
used no bytes or the message it announces reaches beyond the bytes present. -/
def WireCodec.PrefixSafe (c : WireCodec) : Prop :=
  ∀ n q, n ≤ streamMsgSize → q <+: c.encode n → q ≠ c.encode n →
    (c.wire_decode_uint64 q).1 ≤ streamMsgSize ∧
      ((c.wire_decode_uint64 q).2 = 0 ∨
        q.length < (c.wire_decode_uint64 q).2 + (c.wire_decode_uint64 q).1)

/-- The 7-bit groups of `e`, most significant first, each with the
continuation bit `0x80`; `fuel` bounds the number of groups. -/
def varintHigh : Nat → Nat → List Byte
  | 0, _ => []
  | fuel + 1, e =>
    if e = 0 then [] else varintHigh fuel (e / 128) ++ [UInt8.ofNat (e % 128 + 128)]

/-- A base-128 encoding: the higher groups with continuation bit, then the
lowest group without. -/
def varintEncode (e : Nat) : List Byte :=
  varintHigh e (e / 128) ++ [UInt8.ofNat (e % 128)]

/-- The matching decoder: accumulates 7 bits per byte and stops after the
first byte without continuation bit, or at the end of the input. -/
def varintDecode : List Byte → Nat → Nat → Nat × Nat
  | [], elem, length => (elem, length)
  | b :: bs, elem, length =>
    if b.toNat < 128 then (elem * 128 + b.toNat % 128, length + 1)
    else varintDecode bs (elem * 128 + b.toNat % 128) (length + 1)

/-- A concrete codec with which the statements below are instantiated. -/
def varintCodec : WireCodec :=
  ⟨fun v out => out ++ varintEncode v, fun bs => varintDecode bs 0 0⟩

/-- A length decoder that reports "no bytes used" together with the value
`67584`, whatever it is given. -/
def oversizedSentinelCodec : WireCodec :=
  ⟨fun _ out => out, fun _ => (67584, 0)⟩

/-- The loop `for written < len(metaBytes)` of `_sendMetaBytes`, run on the
`Write` results `writes`; every `Write` is handed the whole of `metaBytes`, and
`log` collects the bytes accepted. -/
def sendMetaBytesLoop (rwc : Conn) (inputBuffer : List Byte) (metaBytes : List Byte) :
    List WriteResult → Nat → List Byte → Option (Option Error × stream)
  | writes, written, log =>
    if written < metaBytes.length then
      match writes with
      | [] => none
      | w :: rest =>
        let log := log ++ metaBytes.take w.n
        let written := written + w.n
        match w.err with
        | some err => some (some err, ⟨{ rwc with writes := rest, written := log }, inputBuffer⟩)
        | none => sendMetaBytesLoop rwc inputBuffer metaBytes rest written log
    else
      some (none, ⟨{ rwc with writes := writes, written := log }, inputBuffer⟩)

/-- `func (s *stream) _sendMetaBytes(metaBytes []byte) error` -/
def stream._sendMetaBytes (s : stream) (metaBytes : List Byte) : Option (Option Error × stream) :=
  sendMetaBytesLoop s.rwc s.inputBuffer metaBytes s.rwc.writes 0 s.rwc.written

/-- The loop `for len(metaBytes) < len(frag)` of `_recvMetaBytes`, run on the
`Read` results `reads`; every `Read` is handed the whole of `frag`, whose
length is `fragLen`. -/
def recvMetaBytesLoop (rwc : Conn) (inputBuffer : List Byte) (fragLen : Nat) :
    List ReadResult → List Byte → Option ((Option (List Byte) × Option Error) × stream)
  | reads, metaBytes =>
    if metaBytes.length < fragLen then
      match reads with
      | [] => none
      | rd :: rest =>
        match rd.err with
        | some err => some ((none, some err), ⟨{ rwc with reads := rest }, inputBuffer⟩)
        | none => recvMetaBytesLoop rwc inputBuffer fragLen rest (metaBytes ++ rd.data)
    else
      some ((some metaBytes, none), ⟨{ rwc with reads := reads }, inputBuffer⟩)

/-- `func (s *stream) _recvMetaBytes() ([]byte, error)`.  The type
`version_metadata` is declared elsewhere in the package; `metaLen` is the
length of `meta.encode()`, the only thing the function uses of it. -/
def stream._recvMetaBytes (metaLen : Nat) (s : stream) :
    Option ((Option (List Byte) × Option Error) × stream) :=
  recvMetaBytesLoop s.rwc s.inputBuffer metaLen s.rwc.reads []

/-- Whether the `Write` results keep to `0 ≤ n ≤ len(p)` on every call that a
write loop over a buffer of `len` bytes makes, starting at offset `bn`: each
call is offered the `len - bn` bytes not yet accepted, and the loop ends at the
first error or when nothing is left. -/
def writesWithin (len : Nat) : List WriteResult → Nat → Bool
  | [], _ => true
  | w :: rest, bn =>
    if bn < len then
      decide (w.n ≤ len - bn) && (w.err.isSome || writesWithin len rest (bn + w.n))
    else true

/-- The run-time faults of slice and integer operations. -/
inductive Fault where
  /-- an index expression `a[i]` outside `0 ≤ i < len(a)` -/
  | indexOutOfRange
  /-- a slice expression `a[lo:hi]` outside `0 ≤ lo ≤ hi ≤ len(a)` -/
  | sliceOutOfRange
  /-- a conversion to `int` that does not keep the value -/
  | intOverflow
  deriving DecidableEq, Repr

/-- The value a Go `int` (64 bits, two's complement) holds for the
mathematical result `x`: `x` reduced modulo `2 ^ 64` into the range from
`-2 ^ 63` to `2 ^ 63 - 1`. -/
def wrapInt (x : Int) : Int :=
  (x + 9223372036854775808) % 18446744073709551616 - 9223372036854775808

/-- The index expression `a[idx]` with its bounds check. -/
def indexChecked (a : List Byte) (idx : Int) : Except Fault Byte :=
  if 0 ≤ idx ∧ idx < a.length then
    match a.get? idx.toNat with
    | some b => .ok b
    | none => .error .indexOutOfRange
  else .error .indexOutOfRange

/-- The slice expression `a[lo:hi]` with its bounds check, taken against the
length of `a` (the capacity is at least the length). -/
def sliceChecked (a : List Byte) (lo hi : Int) : Except Fault (List Byte) :=
  if 0 ≤ lo ∧ lo ≤ hi ∧ hi ≤ a.length then .ok ((a.take hi.toNat).drop lo.toNat)
  else .error .sliceOutOfRange

/-- The conversion `int(v)` of a `uint64`, a fault when the value changes. -/
def intOfUint64Checked (v : Nat) : Except Fault Int :=
  if wrapInt v = v then .ok v else .error .intOverflow

/-- The loop `for idx := range streamMsg` of `stream_chopMsg` over the given
indices, with the bounds checks of `(*bs)[idx]` and `streamMsg[idx]`. -/
def magicLoopChecked (bs : List Byte) : List Nat → Except Fault Bool
  | [] => .ok false
  | idx :: rest =>
    match indexChecked bs idx, indexChecked streamMsg idx with
    | .ok b, .ok m => if b != m then .ok true else magicLoopChecked bs rest
    | .error f, _ => .error f
    | _, .error f => .error f

/-- The part of `stream_chopMsg` after the call of the decoder, which gave
`msgLen` and `msgLenLen`, with the run-time checks of its slice and conversion
expressions made explicit and `int` arithmetic wrapping at 64 bits. -/
def chopBodyChecked (bs : List Byte) (msgLen : Nat) (msgLenLen : Int) :
    Except Fault ChopResult :=
  if msgLen > streamMsgSize then
    .ok ⟨none, false, some Error.oversizedMessage, bs⟩
  else
    let msgBegin := wrapInt (streamMsg.length + msgLenLen)
    match intOfUint64Checked msgLen with
    | .error f => .error f
    | .ok n =>
      let msgEnd := wrapInt (msgBegin + n)
      if msgLenLen == 0 || (bs.length : Int) < msgEnd then
        .ok ⟨none, false, none, bs⟩
      else
        match sliceChecked bs msgBegin msgEnd, sliceChecked bs msgEnd bs.length with
        | .ok msg, .ok rest => .ok ⟨some msg, true, none, rest⟩
        | .error f, _ => .error f
        | _, .error f => .error f

/-- `stream_chopMsg` with the run-time checks of its index, slice and
conversion expressions made explicit, and the decoder returning the `int` it
returns in Go. -/
def stream_chopMsg_checked (dec : List Byte → Nat × Int) (bs : List Byte) :
    Except Fault ChopResult :=
  if (bs.length : Int) < streamMsg.length then
    .ok ⟨none, false, none, bs⟩
  else
    match magicLoopChecked bs (List.range streamMsg.length) with
    | .error f => .error f
    | .ok true => .ok ⟨none, false, some Error.badMessage, bs⟩
    | .ok false =>
      match sliceChecked bs streamMsg.length bs.length with
      | .error f => .error f
      | .ok tail => chopBodyChecked bs (dec tail).1 (dec tail).2

/-! ## The framing codec -/

theorem streamMsg_length : streamMsg.length = 4 := rfl

theorem magicMismatch_eq_false_iff (bs : List Byte) (h : 4 ≤ bs.length) :
    magicMismatch bs = false ↔ bs.take 4 = streamMsg := by
  match bs, h with
  | a :: b :: c :: d :: rest, _ =>
    simp [magicMismatch, streamMsg, List.range, List.range.loop, and_assoc]
  | [], h => simp at h
  | [_], h => simp at h
  | [_, _], h => simp at h
  | [_, _, _], h => simp at h

/-- A buffer shorter than the magic is left for later. -/
theorem chop_short (c : WireCodec) (bs : List Byte) (h : bs.length < 4) :
    stream_chopMsg c bs = ⟨none, false, none, bs⟩ := by
  simp [stream_chopMsg, streamMsg_length, h]

/-- What `stream_chopMsg` computes once the magic has matched. -/
theorem chop_magic (c : WireCodec) (bs : List Byte) (h4 : 4 ≤ bs.length)
    (hm : bs.take 4 = streamMsg) :
    stream_chopMsg c bs =
      if (c.wire_decode_uint64 (bs.drop 4)).1 > streamMsgSize then
        ⟨none, false, some Error.oversizedMessage, bs⟩
      else if (c.wire_decode_uint64 (bs.drop 4)).2 = 0 ∨
          bs.length < 4 + (c.wire_decode_uint64 (bs.drop 4)).2
            + (c.wire_decode_uint64 (bs.drop 4)).1 then
        ⟨none, false, none, bs⟩
      else
        ⟨some ((bs.take (4 + (c.wire_decode_uint64 (bs.drop 4)).2
            + (c.wire_decode_uint64 (bs.drop 4)).1)).drop
            (4 + (c.wire_decode_uint64 (bs.drop 4)).2)), true, none,
          bs.drop (4 + (c.wire_decode_uint64 (bs.drop 4)).2
            + (c.wire_decode_uint64 (bs.drop 4)).1)⟩ := by
  have hmm : magicMismatch bs = false := (magicMismatch_eq_false_iff bs h4).2 hm
  have hlt : ¬ bs.length < 4 := by omega
  simp only [stream_chopMsg, streamMsg_length, hlt, hmm, if_false, Bool.false_eq_true,
    Bool.or_eq_true, beq_iff_eq, decide_eq_true_eq]

/-- The four ways `stream_chopMsg` can end: incomplete, bad magic, oversized,
or a message cut out behind magic and length bytes. -/
theorem chop_cases (c : WireCodec) (b : List Byte) :
    stream_chopMsg c b = ⟨none, false, none, b⟩
      ∨ stream_chopMsg c b = ⟨none, false, some Error.badMessage, b⟩
      ∨ stream_chopMsg c b = ⟨none, false, some Error.oversizedMessage, b⟩
      ∨ (b.take 4 = streamMsg
          ∧ (c.wire_decode_uint64 (b.drop 4)).1 ≤ streamMsgSize
          ∧ 0 < (c.wire_decode_uint64 (b.drop 4)).2
          ∧ 4 + (c.wire_decode_uint64 (b.drop 4)).2
              + (c.wire_decode_uint64 (b.drop 4)).1 ≤ b.length
          ∧ stream_chopMsg c b
              = ⟨some ((b.take (4 + (c.wire_decode_uint64 (b.drop 4)).2
                    + (c.wire_decode_uint64 (b.drop 4)).1)).drop
                    (4 + (c.wire_decode_uint64 (b.drop 4)).2)), true, none,
                  b.drop (4 + (c.wire_decode_uint64 (b.drop 4)).2
                    + (c.wire_decode_uint64 (b.drop 4)).1)⟩) := by
  by_cases h4 : b.length < 4
  · exact Or.inl (chop_short c b h4)
  · by_cases hm : magicMismatch b = true
    · right; left
      simp [stream_chopMsg, streamMsg_length, h4, hm]
    · have hmf : magicMismatch b = false := by simpa using hm
      have htake := (magicMismatch_eq_false_iff b (by omega)).1 hmf
      rw [chop_magic c b (by omega) htake]
      by_cases hv : (c.wire_decode_uint64 (b.drop 4)).1 > streamMsgSize
      · right; right; left
        simp only [hv, if_true]
      · by_cases hk : (c.wire_decode_uint64 (b.drop 4)).2 = 0 ∨
            b.length < 4 + (c.wire_decode_uint64 (b.drop 4)).2
              + (c.wire_decode_uint64 (b.drop 4)).1
        · left
          simp only [hv, hk, if_false, if_true]
        · right; right; right
          simp only [hv, hk, if_false]
          exact ⟨htake, by omega, by omega, by omega, trivial⟩

/-! ## The sample codec satisfies the codec contract -/

theorem toNat_ofNat_lt (n : Nat) (h : n < 256) : (UInt8.ofNat n).toNat = n := by
  simp [UInt8.toNat, UInt8.ofNat, Fin.ofNat, Nat.mod_eq_of_lt h]

/-- Decoding the continuation groups of `e` shifts them into the accumulator. -/
theorem varintDecode_high (f : Nat) : ∀ (e : Nat) (ys : List Byte) (elem len : Nat), e ≤ f →
    varintDecode (varintHigh f e ++ ys) elem len
      = varintDecode ys (elem * 128 ^ (varintHigh f e).length + e)
          (len + (varintHigh f e).length) := by
  induction f with
  | zero =>
    intro e ys elem len he
    have : e = 0 := by omega
    subst this
    simp [varintHigh]
  | succ f ih =>
    intro e ys elem len he
    by_cases h0 : e = 0
    · subst h0; simp [varintHigh]
    · have hdiv : e / 128 ≤ f := by
        have : e / 128 < e := Nat.div_lt_self (by omega) (by omega)
        omega
      simp only [varintHigh, h0, if_false, List.append_assoc]
      rw [ih (e / 128) _ elem len hdiv]
      have hb : (UInt8.ofNat (e % 128 + 128)).toNat = e % 128 + 128 :=
        toNat_ofNat_lt _ (by omega)
      simp only [List.singleton_append, varintDecode, hb]
      have hnot : ¬ (e % 128 + 128 < 128) := by omega
      simp only [hnot, if_false, List.length_append, List.length_singleton]
      congr 1
      · have : (e % 128 + 128) % 128 = e % 128 := by omega
        rw [this, pow_succ]
        have := Nat.div_add_mod e 128
        nlinarith [this]

theorem varintDecode_encode (n : Nat) (rest : List Byte) :
    varintDecode (varintEncode n ++ rest) 0 0 = (n, (varintEncode n).length) := by
  unfold varintEncode
  rw [List.append_assoc, varintDecode_high n (n / 128) _ 0 0 (Nat.div_le_self n 128)]
  have hb : (UInt8.ofNat (n % 128)).toNat = n % 128 := toNat_ofNat_lt _ (by omega)
  have hlt : n % 128 < 128 := by omega
  simp only [List.singleton_append, varintDecode, hb, hlt, if_true, List.length_append,
    List.length_singleton, Nat.zero_mul, Nat.zero_add]
  have := Nat.div_add_mod n 128
  congr 1
  omega

/-- A non-empty part of the continuation groups decodes to a positive value
that does not exceed the encoded number, with every byte used. -/
theorem varintDecode_high_part (f : Nat) : ∀ (e : Nat) (q : List Byte), e ≤ f →
    q <+: varintHigh f e → q ≠ [] →
    (varintDecode q 0 0).2 = q.length ∧ 1 ≤ (varintDecode q 0 0).1
      ∧ (varintDecode q 0 0).1 ≤ e := by
  induction f with
  | zero =>
    intro e q _ hq hne
    simp [varintHigh] at hq
    exact absurd hq hne
  | succ f ih =>
    intro e q he hq hne
    by_cases h0 : e = 0
    · subst h0
      simp [varintHigh] at hq
      exact absurd hq hne
    · have hdiv : e / 128 ≤ f := by
        have : e / 128 < e := Nat.div_lt_self (by omega) (by omega)
        omega
      simp only [varintHigh, h0, if_false] at hq
      rcases List.prefix_concat_iff.1 hq with hq | hq
      · have hd := varintDecode_high (f + 1) e [] 0 0 he
        simp only [varintHigh, h0, if_false, List.append_nil, Nat.zero_mul, Nat.zero_add,
          varintDecode] at hd
        subst hq
        rw [hd]
        exact ⟨rfl, by omega, le_refl _⟩
      · obtain ⟨h1, h2, h3⟩ := ih (e / 128) q hdiv hq hne
        exact ⟨h1, h2, le_trans h3 (Nat.div_le_self e 128)⟩

theorem varintCodec_roundTrip : varintCodec.RoundTrip where
  put_append := by
    intro v out
    simp [varintCodec, WireCodec.encode]
  decode_encode := by
    intro n rest _
    simp only [varintCodec, WireCodec.encode, List.nil_append]
    exact varintDecode_encode n rest

theorem varintCodec_prefixSafe : varintCodec.PrefixSafe := by
  intro n q hn hq hne
  simp only [varintCodec, WireCodec.encode, List.nil_append] at hq hne ⊢
  unfold varintEncode at hq hne
  rcases List.prefix_concat_iff.1 hq with hq | hq
  · exact absurd hq hne
  · by_cases hnil : q = []
    · subst hnil
      simp [varintDecode]
    · obtain ⟨h1, h2, h3⟩ :=
        varintDecode_high_part n (n / 128) q (Nat.div_le_self n 128) hq hnil
      have : n / 128 ≤ n := Nat.div_le_self n 128
      exact ⟨by omega, Or.inr (by omega)⟩

/-! ## Frames and the framing codec -/

theorem frame_eq (c : WireCodec) (p : List Byte) :
    frame c p = streamMsg ++ (c.encode p.length ++ p) := by
  simp [frame, streamMsg]

theorem frame_length (c : WireCodec) (p : List Byte) :
    (frame c p).length = 4 + (c.encode p.length).length + p.length := by
  simp [frame]; omega

/-- Under the round-trip law no encoding is empty. -/
theorem encode_ne_nil (c : WireCodec) (hc : c.RoundTrip) (n : Nat) (hn : n ≤ streamMsgSize) :
    c.encode n ≠ [] := by
  intro h
  have h1 := hc.decode_encode n (c.encode (if n = 0 then 1 else 0)) hn
  have hm : (if n = 0 then 1 else 0) ≤ streamMsgSize := by
    split <;> simp [streamMsgSize]
  have h2 := hc.decode_encode (if n = 0 then 1 else 0) [] hm
  rw [h, List.nil_append] at h1
  rw [List.append_nil, h1] at h2
  have h3 := congrArg Prod.fst h2
  simp only at h3
  split at h3 <;> omega

theorem encode_length_pos (c : WireCodec) (hc : c.RoundTrip) (n : Nat)
    (hn : n ≤ streamMsgSize) : 0 < (c.encode n).length :=
  List.length_pos.2 (encode_ne_nil c hc n hn)

/-- A complete frame at the front of the buffer is extracted, and what follows
it stays. -/
theorem chop_frame_append (c : WireCodec) (hc : c.RoundTrip) (p t : List Byte)
    (hp : p.length ≤ streamMsgSize) :
    stream_chopMsg c (frame c p ++ t) = ⟨some p, true, none, t⟩ := by
  have hpos := encode_length_pos c hc p.length hp
  have hdrop : (frame c p ++ t).drop 4 = c.encode p.length ++ (p ++ t) := by
    simp [frame]
  have htake : (frame c p ++ t).take 4 = streamMsg := by
    simp [frame, streamMsg]
  have hlen : (frame c p ++ t).length
      = 4 + (c.encode p.length).length + p.length + t.length := by
    simp [frame]; omega
  rw [chop_magic c _ (by omega) htake, hdrop, hc.decode_encode p.length _ hp]
  have h1 : ¬ p.length > streamMsgSize := by omega
  have h2 : ¬ ((c.encode p.length).length = 0 ∨
      (frame c p ++ t).length < 4 + (c.encode p.length).length + p.length) := by omega
  simp only [h1, h2, if_false]
  have e1 : (frame c p ++ t).drop (4 + (c.encode p.length).length + p.length) = t := by
    rw [← frame_length, List.drop_left]
  have e2 : ((frame c p ++ t).take (4 + (c.encode p.length).length + p.length)).drop
      (4 + (c.encode p.length).length) = p := by
    rw [← frame_length, List.take_left, frame]
    have : 4 + (c.encode p.length).length
        = ([0xde, 0xad, 0xb1, 0x75] ++ c.encode p.length : List Byte).length := by
      simp; omega
    rw [this, List.drop_left]
  rw [e1, e2]

/-- A frame that has only partly arrived is left in the buffer. -/
theorem chop_frame_part (c : WireCodec) (hc : c.RoundTrip) (hs : c.PrefixSafe)
    (p b : List Byte) (hp : p.length ≤ streamMsgSize) (hb : b <+: frame c p)
    (hlt : b.length < (frame c p).length) :
    stream_chopMsg c b = ⟨none, false, none, b⟩ := by
  by_cases h4 : b.length < 4
  · exact chop_short c b h4
  · have hbt : b = (frame c p).take b.length := List.prefix_iff_eq_take.1 hb
    have hfl := frame_length c p
    have htake : b.take 4 = streamMsg := by
      rw [hbt, List.take_take, frame_eq]
      have : min 4 b.length = 4 := by omega
      rw [this]
      exact List.take_left' rfl
    have hdrop : b.drop 4 = (c.encode p.length ++ p).take (b.length - 4) := by
      conv_lhs => rw [hbt, frame_eq]
      rw [List.drop_take]
      congr 1
    rw [chop_magic c b (by omega) htake, hdrop]
    by_cases hq : b.length - 4 < (c.encode p.length).length
    · have hE : (c.encode p.length ++ p).take (b.length - 4)
          = (c.encode p.length).take (b.length - 4) :=
        List.take_append_of_le_length (by omega)
      have hpre : (c.encode p.length).take (b.length - 4) <+: c.encode p.length :=
        List.take_prefix _ _
      have hne : (c.encode p.length).take (b.length - 4) ≠ c.encode p.length := by
        intro h
        have := congrArg List.length h
        simp at this
        omega
      obtain ⟨h1, h2⟩ := hs p.length _ hp hpre hne
      rw [hE]
      have hql : ((c.encode p.length).take (b.length - 4)).length = b.length - 4 := by
        simp; omega
      rw [hql] at h2
      have h1' : ¬ (c.wire_decode_uint64 ((c.encode p.length).take (b.length - 4))).1
          > streamMsgSize := by omega
      have h2' : (c.wire_decode_uint64 ((c.encode p.length).take (b.length - 4))).2 = 0 ∨
          b.length < 4 + (c.wire_decode_uint64 ((c.encode p.length).take (b.length - 4))).2
            + (c.wire_decode_uint64 ((c.encode p.length).take (b.length - 4))).1 := by
        rcases h2 with h | h
        · exact Or.inl h
        · exact Or.inr (by omega)
      simp only [h1', h2', if_false, if_true]
    · have hE : (c.encode p.length ++ p).take (b.length - 4)
          = c.encode p.length ++ p.take (b.length - 4 - (c.encode p.length).length) := by
        rw [List.take_append_eq_append_take, List.take_of_length_le (by omega)]
      rw [hE, hc.decode_encode p.length _ hp]
      have h1 : ¬ p.length > streamMsgSize := by omega
      have h2 : (c.encode p.length).length = 0 ∨
          b.length < 4 + (c.encode p.length).length + p.length := Or.inr (by omega)
      simp only [h1, h2, if_false, if_true]

/-! ## The read loop -/

/-- With a complete frame at the front of the buffer the loop returns its
payload at once, without a `Read`. -/
theorem readMsgLoop_frame_append (c : WireCodec) (hc : c.RoundTrip) (rwc : Conn)
    (reads : List ReadResult) (p t : List Byte) (hp : p.length ≤ streamMsgSize) :
    readMsgLoop c rwc reads (frame c p ++ t)
      = some ((some p, none), ⟨{ rwc with reads := reads }, t⟩) := by
  unfold readMsgLoop
  simp [chop_frame_append c hc p t hp, GetBytes]

/-- The loop on chunked input: when buffer and chunks together hold a frame
followed by `rest`, the loop returns the payload, and the buffer and chunks
left over hold `rest`. -/
theorem readMsgLoop_chunks (c : WireCodec) (hc : c.RoundTrip) (hs : c.PrefixSafe) (rwc : Conn)
    (p rest : List Byte) (hp : p.length ≤ streamMsgSize) :
    ∀ (chunks : List (List Byte)) (b : List Byte), b ++ chunks.flatten = frame c p ++ rest →
      ∃ chunks1 b1, readMsgLoop c rwc (deliver chunks) b
          = some ((some p, none), ⟨{ rwc with reads := deliver chunks1 }, b1⟩)
        ∧ b1 ++ chunks1.flatten = rest ∧ chunks1 <:+ chunks := by
  intro chunks
  induction chunks with
  | nil =>
    intro b hb
    simp only [List.flatten_nil, List.append_nil] at hb
    subst hb
    exact ⟨[], rest, readMsgLoop_frame_append c hc rwc _ p rest hp, by simp, List.suffix_rfl⟩
  | cons ch cs ih =>
    intro b hb
    by_cases hlen : (frame c p).length ≤ b.length
    · have hpre : frame c p <+: b :=
        List.prefix_of_prefix_length_le (List.prefix_append _ rest)
          (hb ▸ List.prefix_append b _) hlen
      obtain ⟨t, rfl⟩ := hpre
      rw [List.append_assoc] at hb
      have ht := List.append_cancel_left hb
      exact ⟨ch :: cs, t, readMsgLoop_frame_append c hc rwc _ p t hp, ht, List.suffix_rfl⟩
    · have hpre : b <+: frame c p :=
        List.prefix_of_prefix_length_le (hb ▸ List.prefix_append b _)
          (List.prefix_append _ rest) (by omega)
      have hchop := chop_frame_part c hc hs p b hp hpre (by omega)
      have hstep : readMsgLoop c rwc (deliver (ch :: cs)) b
          = readMsgLoop c rwc (deliver cs) (b ++ ch) := by
        rw [readMsgLoop.eq_def]
        simp only [hchop, deliver, List.map_cons, Bool.false_eq_true, if_false]
        by_cases hch : ch.length > 0
        · simp only [hch, if_true]
        · have : ch = [] := List.length_eq_zero.1 (by omega)
          subst this
          simp
      have hb2 : (b ++ ch) ++ cs.flatten = frame c p ++ rest := by
        rw [List.append_assoc]; exact hb
      obtain ⟨chunks1, b1, h1, h2, h3⟩ := ih (b ++ ch) hb2
      exact ⟨chunks1, b1, hstep.trans h1, h2, h3.trans (List.suffix_cons ch cs)⟩

/-- One iteration of the read loop on a buffer that holds no complete
message and no corruption: the next `Read` decides. -/
theorem readMsgLoop_incomplete (c : WireCodec) (rwc : Conn) (rd : ReadResult)
    (rest : List ReadResult) (b : List Byte)
    (hinc : stream_chopMsg c b = ⟨none, false, none, b⟩) :
    readMsgLoop c rwc (rd :: rest) b
      = if rd.data.length > 0 then readMsgLoop c rwc rest (b ++ rd.data)
        else if rd.err ≠ none then some ((none, rd.err), ⟨{ rwc with reads := rest }, b⟩)
        else readMsgLoop c rwc rest b := by
  rw [readMsgLoop.eq_def]
  simp only [hinc, Bool.false_eq_true, if_false]

/-- Every result of the read loop is either a message that `stream_chopMsg`
cut out of the buffer extended by the data of the `Read` calls made, with a
nil error, or a nil message with an error. -/
theorem readMsgLoop_result (c : WireCodec) (rwc : Conn) :
    ∀ (reads : List ReadResult) (b : List Byte)
      (res : Option (List Byte) × Option Error) (s1 : stream),
      readMsgLoop c rwc reads b = some (res, s1) →
      ∃ k, s1.rwc.reads = reads.drop k ∧
        ((∃ msg, res = (some msg, none) ∧
            stream_chopMsg c (b ++ ((reads.take k).map (·.data)).flatten)
              = ⟨some msg, true, none, s1.inputBuffer⟩)
          ∨ ∃ e, res = (none, some e)) := by
  intro reads
  induction reads with
  | nil =>
    intro b res s1 h
    rw [readMsgLoop.eq_def] at h
    rcases chop_cases c b with hc | hc | hc | ⟨_, _, _, _, hc⟩
    · simp [hc] at h
    · simp only [hc, Option.some.injEq, Prod.mk.injEq] at h
      exact ⟨0, by rw [← h.2]; rfl, Or.inr ⟨_, h.1.symm⟩⟩
    · simp only [hc, Option.some.injEq, Prod.mk.injEq] at h
      exact ⟨0, by rw [← h.2]; rfl, Or.inr ⟨_, h.1.symm⟩⟩
    · simp only [hc, if_true, Option.some.injEq, Prod.mk.injEq, Option.getD_some, GetBytes,
        List.nil_append] at h
      refine ⟨0, by rw [← h.2]; rfl, Or.inl ⟨_, h.1.symm, ?_⟩⟩
      rw [← h.2]
      simpa using hc
  | cons rd rest ih =>
    intro b res s1 h
    rcases chop_cases c b with hc | hc | hc | ⟨_, _, _, _, hc⟩
    · rw [readMsgLoop_incomplete c rwc rd rest b hc] at h
      by_cases hd : rd.data.length > 0
      · simp only [hd, if_true] at h
        obtain ⟨k, hk1, hk2⟩ := ih _ _ _ h
        refine ⟨k + 1, by simpa using hk1, ?_⟩
        simpa [List.append_assoc] using hk2
      · have hnil : rd.data = [] := List.length_eq_zero.1 (by omega)
        simp only [hd, if_false] at h
        by_cases he : rd.err ≠ none
        · rw [if_pos he] at h
          simp only [Option.some.injEq, Prod.mk.injEq] at h
          obtain ⟨e, hee⟩ := Option.ne_none_iff_exists'.1 he
          refine ⟨1, by rw [← h.2]; simp, Or.inr ⟨e, ?_⟩⟩
          rw [← h.1, hee]
        · rw [if_neg he] at h
          obtain ⟨k, hk1, hk2⟩ := ih _ _ _ h
          refine ⟨k + 1, by simpa using hk1, ?_⟩
          simpa [hnil] using hk2
    · rw [readMsgLoop.eq_def] at h
      simp only [hc, Option.some.injEq, Prod.mk.injEq] at h
      exact ⟨0, by rw [← h.2]; simp, Or.inr ⟨_, h.1.symm⟩⟩
    · rw [readMsgLoop.eq_def] at h
      simp only [hc, Option.some.injEq, Prod.mk.injEq] at h
      exact ⟨0, by rw [← h.2]; simp, Or.inr ⟨_, h.1.symm⟩⟩
    · rw [readMsgLoop.eq_def] at h
      simp only [hc, if_true, Option.some.injEq, Prod.mk.injEq, Option.getD_some, GetBytes,
        List.nil_append] at h
      refine ⟨0, by rw [← h.2]; simp, Or.inl ⟨_, h.1.symm, ?_⟩⟩
      rw [← h.2]
      simpa using hc

/-- A frame that arrives whole in the first `Read` on an empty buffer is
returned, and nothing stays buffered. -/
theorem readMsgLoop_whole_frame (c : WireCodec) (hc : c.RoundTrip) (rwc : Conn)
    (e : Option Error) (more : List ReadResult) (p : List Byte)
    (hp : p.length ≤ streamMsgSize) :
    readMsgLoop c rwc (⟨frame c p, e⟩ :: more) []
      = some ((some p, none), ⟨{ rwc with reads := more }, []⟩) := by
  have hpos : (frame c p).length > 0 := by rw [frame_length]; omega
  rw [readMsgLoop_incomplete c rwc _ more [] (chop_short c [] (by simp))]
  simp only [hpos, if_true, List.nil_append]
  simpa using readMsgLoop_frame_append c hc rwc more p [] hp

/-! ## The write loop -/

/-- The buffer `writeMsg` hands to the loop is the frame, and `padLen` is the
length of magic and encoded length. -/
theorem writeMsg_eq (c : WireCodec)
    (hput : ∀ v out, c.wire_put_uint64 v out = out ++ c.encode v) (s : stream)
    (p : List Byte) :
    s.writeMsg c p = writeMsgLoop s.rwc s.inputBuffer (frame c p)
      (4 + (c.encode p.length).length) p.length s.rwc.writes 0 s.rwc.written := by
  have h : ([] ++ streamMsg ++ c.encode p.length : List Byte).length
      = 4 + (c.encode p.length).length := by
    simp [streamMsg]; omega
  simp only [stream.writeMsg, hput, h]
  simp [frame, streamMsg]

/-- A loop that returns without error has handed over the rest of the buffer. -/
theorem writeMsgLoop_success (rwc : Conn) (ib buf : List Byte) (padLen lenBs : Nat) :
    ∀ (ws : List WriteResult) (bn : Nat) (written : List Byte) (k : Int) (s1 : stream),
      writeMsgLoop rwc ib buf padLen lenBs ws bn written = some ((k, none), s1) →
      k = lenBs ∧ s1.rwc.written = written ++ buf.drop bn := by
  intro ws
  induction ws with
  | nil =>
    intro bn written k s1 h
    rw [writeMsgLoop.eq_def] at h
    by_cases hlt : bn < buf.length
    · simp [hlt] at h
    · simp only [hlt, if_false, Option.some.injEq, Prod.mk.injEq] at h
      obtain ⟨⟨hk, _⟩, hs⟩ := h
      subst hs
      refine ⟨hk.symm, ?_⟩
      simp [List.drop_eq_nil_of_le (Nat.le_of_not_lt hlt)]
  | cons w rest ih =>
    intro bn written k s1 h
    rw [writeMsgLoop.eq_def] at h
    by_cases hlt : bn < buf.length
    · simp only [hlt, if_true] at h
      cases hw : w.err with
      | some e => simp [hw] at h
      | none =>
        simp only [hw] at h
        obtain ⟨hk, hs⟩ := ih _ _ _ _ h
        refine ⟨hk, ?_⟩
        rw [hs, List.append_assoc, ← List.drop_drop, List.take_append_drop]
    · simp only [hlt, if_false, Option.some.injEq, Prod.mk.injEq] at h
      obtain ⟨⟨hk, _⟩, hs⟩ := h
      subst hs
      refine ⟨hk.symm, ?_⟩
      simp [List.drop_eq_nil_of_le (Nat.le_of_not_lt hlt)]

/-- Error-free `Write` results whose counts cover the rest of the buffer make
the loop return `len(bs)` with everything handed over. -/
theorem writeMsgLoop_flush (rwc : Conn) (ib buf : List Byte) (padLen lenBs : Nat) :
    ∀ (ws : List WriteResult) (bn : Nat) (written : List Byte),
      (∀ w ∈ ws, w.err = none) → buf.length ≤ bn + (ws.map (·.n)).sum →
      ∃ ws1, writeMsgLoop rwc ib buf padLen lenBs ws bn written
        = some (((lenBs : Int), none),
            ⟨{ rwc with writes := ws1, written := written ++ buf.drop bn }, ib⟩) := by
  intro ws
  induction ws with
  | nil =>
    intro bn written _ hsum
    simp only [List.map_nil, List.sum_nil, Nat.add_zero] at hsum
    rw [writeMsgLoop.eq_def]
    have hlt : ¬ bn < buf.length := by omega
    exact ⟨[], by simp [hlt, List.drop_eq_nil_of_le hsum]⟩
  | cons w rest ih =>
    intro bn written herr hsum
    rw [writeMsgLoop.eq_def]
    by_cases hlt : bn < buf.length
    · have hw : w.err = none := herr w (List.mem_cons_self _ _)
      simp only [hlt, if_true, hw]
      have hsum1 : buf.length ≤ bn + w.n + (rest.map (·.n)).sum := by
        simp only [List.map_cons, List.sum_cons] at hsum
        omega
      obtain ⟨ws1, h1⟩ := ih (bn + w.n) (written ++ (buf.drop bn).take w.n)
        (fun x hx => herr x (List.mem_cons_of_mem _ hx)) hsum1
      refine ⟨ws1, ?_⟩
      rw [h1, List.append_assoc, ← List.drop_drop, List.take_append_drop]
    · exact ⟨w :: rest, by simp [hlt, List.drop_eq_nil_of_le (Nat.le_of_not_lt hlt)]⟩

/-- A `Write` that fails while bytes are still due ends the loop with the
count past `padLen`, clamped at zero. -/
theorem writeMsgLoop_fail (rwc : Conn) (ib buf : List Byte) (padLen lenBs : Nat)
    (n : Nat) (e : Error) (post : List WriteResult) :
    ∀ (pre : List WriteResult) (bn : Nat) (written : List Byte),
      (∀ w ∈ pre, w.err = none) → bn + (pre.map (·.n)).sum < buf.length →
      writeMsgLoop rwc ib buf padLen lenBs (pre ++ ⟨n, some e⟩ :: post) bn written
        = some ((max 0 (((bn + (pre.map (·.n)).sum + n : Nat) : Int) - (padLen : Int)), some e),
            ⟨{ rwc with writes := post,
                        written := written ++ (buf.drop bn).take ((pre.map (·.n)).sum + n) },
              ib⟩) := by
  intro pre
  induction pre with
  | nil =>
    intro bn written _ hsum
    simp only [List.map_nil, List.sum_nil, Nat.add_zero] at hsum
    rw [writeMsgLoop.eq_def]
    simp only [List.nil_append, hsum, if_true, List.map_nil, List.sum_nil, Nat.add_zero,
      Nat.zero_add]
    have hmax : ∀ x : Int, (if x < 0 then 0 else x) = max 0 x := by
      intro x
      rw [max_def]
      split_ifs <;> omega
    rw [hmax]
  | cons w rest ih =>
    intro bn written herr hsum
    simp only [List.map_cons, List.sum_cons] at hsum ⊢
    have hlt : bn < buf.length := by omega
    have hw : w.err = none := herr w (List.mem_cons_self _ _)
    rw [List.cons_append, writeMsgLoop.eq_def]
    simp only [hlt, if_true, hw]
    rw [ih (bn + w.n) _ (fun x hx => herr x (List.mem_cons_of_mem _ hx)) (by omega)]
    have e1 : bn + w.n + (rest.map (·.n)).sum + n = bn + (w.n + (rest.map (·.n)).sum) + n := by
      omega
    have e2 : (written ++ (buf.drop bn).take w.n)
          ++ (buf.drop (bn + w.n)).take ((rest.map (·.n)).sum + n)
        = written ++ (buf.drop bn).take (w.n + (rest.map (·.n)).sum + n) := by
      rw [List.append_assoc, ← List.drop_drop, Nat.add_assoc w.n,
        List.take_add (List.drop bn buf) w.n]
    rw [e1, e2]

/-- The buffer and header length `writeMsg` hands to the loop, with nothing
assumed of the codec. -/
theorem writeMsg_unfold (c : WireCodec) (s : stream) (p : List Byte) :
    s.writeMsg c p = writeMsgLoop s.rwc s.inputBuffer
      (c.wire_put_uint64 p.length [0xde, 0xad, 0xb1, 0x75] ++ p)
      (c.wire_put_uint64 p.length [0xde, 0xad, 0xb1, 0x75]).length p.length
      s.rwc.writes 0 s.rwc.written := rfl

/-- With `Write` counts that keep to the bytes offered, the count the loop
returns lies between 0 and `len(bs)`, and is `len(bs)` when the error is nil. -/
theorem writeMsgLoop_bounded (rwc : Conn) (ib buf : List Byte) (padLen lenBs : Nat)
    (hbuf : buf.length = padLen + lenBs) :
    ∀ (ws : List WriteResult) (bn : Nat) (written : List Byte) (k : Int)
      (e : Option Error) (s1 : stream),
      writesWithin buf.length ws bn = true →
      writeMsgLoop rwc ib buf padLen lenBs ws bn written = some ((k, e), s1) →
      0 ≤ k ∧ k ≤ lenBs ∧ (e = none → k = lenBs) := by
  intro ws
  induction ws with
  | nil =>
    intro bn written k e s1 _ h
    rw [writeMsgLoop.eq_def] at h
    by_cases hlt : bn < buf.length
    · simp [hlt] at h
    · simp only [hlt, if_false, Option.some.injEq, Prod.mk.injEq] at h
      obtain ⟨⟨hk, _⟩, _⟩ := h
      subst hk
      exact ⟨by omega, le_refl _, fun _ => rfl⟩
  | cons w rest ih =>
    intro bn written k e s1 hw h
    rw [writeMsgLoop.eq_def] at h
    by_cases hlt : bn < buf.length
    · simp only [writesWithin, hlt, if_true, Bool.and_eq_true, decide_eq_true_eq,
        Bool.or_eq_true] at hw
      simp only [hlt, if_true] at h
      cases hwe : w.err with
      | some err =>
        simp only [hwe, Option.some.injEq, Prod.mk.injEq] at h
        obtain ⟨⟨hk, he⟩, _⟩ := h
        subst hk he
        have := hw.1
        refine ⟨?_, ?_, fun hne => by simp at hne⟩
        · split <;> omega
        · split <;> omega
      | none =>
        simp only [hwe] at h
        have hrest : writesWithin buf.length rest (bn + w.n) = true := by
          rcases hw.2 with h1 | h1
          · simp [hwe] at h1
          · exact h1
        exact ih _ _ _ _ _ hrest h
    · simp only [hlt, if_false, Option.some.injEq, Prod.mk.injEq] at h
      obtain ⟨⟨hk, he⟩, _⟩ := h
      subst hk he
      exact ⟨by omega, le_refl _, fun _ => rfl⟩

/-- A run that holds a failing `Write` makes the write loop return. -/
theorem writeMsgLoop_returns (rwc : Conn) (ib buf : List Byte) (padLen lenBs : Nat) :
    ∀ (ws : List WriteResult) (bn : Nat) (written : List Byte),
      (∃ w ∈ ws, w.err ≠ none) →
      (writeMsgLoop rwc ib buf padLen lenBs ws bn written).isSome = true := by
  intro ws
  induction ws with
  | nil =>
    intro bn written h
    obtain ⟨w, hw, _⟩ := h
    simp at hw
  | cons w rest ih =>
    intro bn written h
    rw [writeMsgLoop.eq_def]
    by_cases hlt : bn < buf.length
    · simp only [hlt, if_true]
      cases hwe : w.err with
      | some err => simp
      | none =>
        simp only
        apply ih
        obtain ⟨x, hx, hxe⟩ := h
        rcases List.mem_cons.1 hx with rfl | hx
        · exact absurd hwe hxe
        · exact ⟨x, hx, hxe⟩
    · simp [hlt]

/-! ## Claims about the framing codec -/

/-- C2. Successful extraction: when the buffer `b` starts with the magic, the
length decoder gives `(v, k)` on `b[4:]` with `k > 0` and `v ≤ 67583`, and
`b` has at least `4 + k + v` bytes, `stream_chopMsg` returns
`(b[4+k : 4+k+v], true, nil)` and leaves `b[4+k+v:]` in the buffer; the
message has `v` bytes, exactly `4 + k + v` bytes are consumed, and `b` is
magic, length bytes, message and remainder in that order. -/
theorem chopMsg_extracts (c : WireCodec) (b : List Byte) (v k : Nat)
    (hmagic : b.take 4 = [0xde, 0xad, 0xb1, 0x75])
    (hdec : c.wire_decode_uint64 (b.drop 4) = (v, k))
    (hk : 0 < k) (hv : v ≤ 67583) (hlen : 4 + k + v ≤ b.length) :
    stream_chopMsg c b
        = ⟨some ((b.take (4 + k + v)).drop (4 + k)), true, none, b.drop (4 + k + v)⟩
      ∧ ((b.take (4 + k + v)).drop (4 + k)).length = v
      ∧ (b.drop (4 + k + v)).length + (4 + k + v) = b.length
      ∧ b = [0xde, 0xad, 0xb1, 0x75] ++ (b.take (4 + k)).drop 4
              ++ (b.take (4 + k + v)).drop (4 + k) ++ b.drop (4 + k + v) := by
  refine ⟨?_, ?_, ?_, ?_⟩
  · rw [chop_magic c b (by omega) hmagic, hdec]
    have h1 : ¬ v > streamMsgSize := by simp [streamMsgSize]; omega
    have h2 : ¬ (k = 0 ∨ b.length < 4 + k + v) := by omega
    simp only [h1, h2, if_false]
  · simp [List.length_drop, List.length_take]; omega
  · simp [List.length_drop]; omega
  · have e1 : (b.take (4 + k)).drop 4 = (b.drop 4).take k := by
      rw [List.take_drop]
    have e2 : (b.take (4 + k + v)).drop (4 + k) = (b.drop (4 + k)).take v := by
      rw [List.take_drop]
    have e3 : b.drop (4 + k) = (b.drop 4).drop k := by rw [List.drop_drop]
    have e4 : b.drop (4 + k + v) = ((b.drop 4).drop k).drop v := by
      rw [List.drop_drop, List.drop_drop, Nat.add_assoc]
    rw [e1, e2, e3, e4, ← hmagic, List.append_assoc, List.append_assoc,
      List.take_append_drop, List.take_append_drop, List.take_append_drop]

theorem chopMsg_extracts_witness :
    stream_chopMsg varintCodec [0xde, 0xad, 0xb1, 0x75, 0x02, 0x68, 0x69, 0x21]
      = ⟨some [0x68, 0x69], true, none, [0x21]⟩ :=
  (chopMsg_extracts varintCodec [0xde, 0xad, 0xb1, 0x75, 0x02, 0x68, 0x69, 0x21] 2 1
    (by decide) (by decide) (by decide) (by decide) (by decide)).1

/-- C3. Magic mismatch: on a buffer of at least 4 bytes whose first 4 bytes are
not `DE AD B1 75`, `stream_chopMsg` returns `(nil, false, "bad message")` and
leaves the buffer alone, whatever the codec and the later bytes; the result is
neither the incomplete result nor a message. -/
theorem chopMsg_bad_magic (c : WireCodec) (b : List Byte) (hlen : 4 ≤ b.length)
    (hmagic : b.take 4 ≠ [0xde, 0xad, 0xb1, 0x75]) :
    stream_chopMsg c b = ⟨none, false, some Error.badMessage, b⟩
      ∧ stream_chopMsg c b ≠ ⟨none, false, none, b⟩
      ∧ (stream_chopMsg c b).ok = false := by
  have hmm : magicMismatch b = true := by
    cases h : magicMismatch b with
    | true => rfl
    | false => exact absurd ((magicMismatch_eq_false_iff b hlen).1 h) hmagic
  have hlt : ¬ b.length < 4 := by omega
  have e : stream_chopMsg c b = ⟨none, false, some Error.badMessage, b⟩ := by
    simp [stream_chopMsg, streamMsg_length, hlt, hmm]
  refine ⟨e, ?_, ?_⟩
  · rw [e]; simp
  · rw [e]

theorem chopMsg_bad_magic_witness :
    stream_chopMsg varintCodec [0xde, 0xad, 0xb1, 0x74, 0x00]
      = ⟨none, false, some Error.badMessage, [0xde, 0xad, 0xb1, 0x74, 0x00]⟩ :=
  (chopMsg_bad_magic varintCodec [0xde, 0xad, 0xb1, 0x74, 0x00] (by decide) (by decide)).1

/-- C4. Oversized rejection: on a buffer that starts with the magic, a decoded
length above `67583` gives `(nil, false, "oversized message")` whatever the
number of bytes the decoder used and however much of the payload is present,
and a decoded length of exactly `67583` gives no error. -/
theorem chopMsg_oversized (c : WireCodec) (b : List Byte)
    (hmagic : b.take 4 = [0xde, 0xad, 0xb1, 0x75]) :
    (67583 < (c.wire_decode_uint64 (b.drop 4)).1 →
        stream_chopMsg c b = ⟨none, false, some Error.oversizedMessage, b⟩)
      ∧ ((c.wire_decode_uint64 (b.drop 4)).1 = 67583 → (stream_chopMsg c b).err = none) := by
  have h4 : 4 ≤ b.length := by
    have := congrArg List.length hmagic
    simp at this
    omega
  constructor
  · intro hv
    rw [chop_magic c b h4 hmagic]
    have h1 : (c.wire_decode_uint64 (b.drop 4)).1 > streamMsgSize := by
      simp [streamMsgSize]; omega
    simp only [h1, if_true]
  · intro hv
    rw [chop_magic c b h4 hmagic]
    have h1 : ¬ (c.wire_decode_uint64 (b.drop 4)).1 > streamMsgSize := by
      simp [streamMsgSize]; omega
    simp only [h1, if_false]
    split <;> rfl

theorem chopMsg_oversized_witness :
    (varintCodec.wire_decode_uint64 [0x84, 0x90, 0x00]).1 = 67584
      ∧ stream_chopMsg varintCodec [0xde, 0xad, 0xb1, 0x75, 0x84, 0x90, 0x00]
        = ⟨none, false, some Error.oversizedMessage,
            [0xde, 0xad, 0xb1, 0x75, 0x84, 0x90, 0x00]⟩ :=
  ⟨by decide,
    (chopMsg_oversized varintCodec [0xde, 0xad, 0xb1, 0x75, 0x84, 0x90, 0x00]
      (by decide)).1 (by decide)⟩

/-- C5, as stated, fails: with a decoder that reports `(67584, 0)` the buffer
`DE AD B1 75` gives the oversized error, not the incomplete result. -/
theorem chopMsg_zero_used_oversized_counterexample :
    (oversizedSentinelCodec.wire_decode_uint64 (List.drop 4 [0xde, 0xad, 0xb1, 0x75])).2 = 0
      ∧ stream_chopMsg oversizedSentinelCodec [0xde, 0xad, 0xb1, 0x75]
          = ⟨none, false, some Error.oversizedMessage, [0xde, 0xad, 0xb1, 0x75]⟩
      ∧ stream_chopMsg oversizedSentinelCodec [0xde, 0xad, 0xb1, 0x75]
          ≠ ⟨none, false, none, [0xde, 0xad, 0xb1, 0x75]⟩ := by
  decide

/-- C5, amended. Incomplete length prefix: on a buffer that starts with the
magic, when the decoder reports that it used 0 bytes and the value it reports
alongside is at most `67583`, `stream_chopMsg` returns `(nil, false, nil)` and
leaves the buffer alone. -/
theorem chopMsg_zero_used_incomplete (c : WireCodec) (b : List Byte) (v : Nat)
    (hmagic : b.take 4 = [0xde, 0xad, 0xb1, 0x75])
    (hdec : c.wire_decode_uint64 (b.drop 4) = (v, 0)) (hv : v ≤ 67583) :
    stream_chopMsg c b = ⟨none, false, none, b⟩ := by
  have h4 : 4 ≤ b.length := by
    have := congrArg List.length hmagic
    simp at this
    omega
  rw [chop_magic c b h4 hmagic, hdec]
  have h1 : ¬ v > streamMsgSize := by simp [streamMsgSize]; omega
  simp [h1]

theorem chopMsg_zero_used_incomplete_witness :
    varintCodec.wire_decode_uint64 [] = (0, 0)
      ∧ stream_chopMsg varintCodec [0xde, 0xad, 0xb1, 0x75]
        = ⟨none, false, none, [0xde, 0xad, 0xb1, 0x75]⟩ :=
  ⟨by decide,
    chopMsg_zero_used_incomplete varintCodec [0xde, 0xad, 0xb1, 0x75] 0 (by decide)
      (by decide) (by decide)⟩

/-- Successive `readMsg` calls on chunked input: when buffer and chunks
together hold the frames of `ps` in order, `ps.length` calls return the
payloads of `ps` in order. -/
theorem readMsgs_chunks (c : WireCodec) (hc : c.RoundTrip) (hs : c.PrefixSafe)
    (ws : List WriteResult) (wr : List Byte) :
    ∀ (ps : List (List Byte)), (∀ p ∈ ps, p.length ≤ streamMsgSize) →
      ∀ (chunks : List (List Byte)) (b : List Byte),
        b ++ chunks.flatten = (ps.map (frame c)).flatten →
        ∃ chunks1 b1, stream.readMsgs c ps.length ⟨⟨deliver chunks, ws, wr⟩, b⟩
            = some (ps.map (fun p => (some p, none)), ⟨⟨deliver chunks1, ws, wr⟩, b1⟩)
          ∧ b1 ++ chunks1.flatten = [] ∧ chunks1 <:+ chunks := by
  intro ps
  induction ps with
  | nil =>
    intro _ chunks b hb
    exact ⟨chunks, b, rfl, by simpa using hb, List.suffix_rfl⟩
  | cons p ps ih =>
    intro hps chunks b hb
    simp only [List.map_cons, List.flatten_cons] at hb
    obtain ⟨chunks1, b1, h1, h2, h3⟩ :=
      readMsgLoop_chunks c hc hs ⟨deliver chunks, ws, wr⟩ p (ps.map (frame c)).flatten
        (hps p (List.mem_cons_self _ _)) chunks b hb
    obtain ⟨chunks2, b2, k1, k2, k3⟩ :=
      ih (fun q hq => hps q (List.mem_cons_of_mem _ hq)) chunks1 b1 h2
    refine ⟨chunks2, b2, ?_, k2, k3.trans h3⟩
    simp only [List.length_cons, stream.readMsgs, stream.readMsg, h1, k1, List.map_cons]

/-! ## Claims about the stream driver -/

theorem le_streamMsgSize {n : Nat} (h : n ≤ 67583) : n ≤ streamMsgSize := by
  unfold streamMsgSize; omega

/-- Non-empty chunks that together hold nothing are no chunks at all. -/
theorem chunks_eq_nil (chunks : List (List Byte)) (hne : ∀ ch ∈ chunks, ch ≠ [])
    (h : chunks.flatten = []) : chunks = [] := by
  cases chunks with
  | nil => rfl
  | cons ch cs =>
    exfalso
    have h1 := List.flatten_eq_nil_iff.1 h ch (List.mem_cons_self _ _)
    exact hne ch (List.mem_cons_self _ _) h1

/-- C7. Boundary exactness: when the accumulation buffer holds the frame of a
payload `p` of at most `67583` bytes followed by trailing bytes `t`, one
`readMsg` call returns `(p, nil)`, leaves the connection as it was (no `Read`
is consumed) and leaves exactly `t` buffered; this holds for every `t`, so for
`t = DE AD B1` too. -/
theorem readMsg_boundary (c : WireCodec) (hc : c.RoundTrip) (p t : List Byte) (s : stream)
    (hp : p.length ≤ 67583) (hbuf : s.inputBuffer = frame c p ++ t) :
    s.readMsg c = some ((some p, none), ⟨s.rwc, t⟩) := by
  unfold stream.readMsg
  rw [hbuf, readMsgLoop_frame_append c hc s.rwc s.rwc.reads p t (le_streamMsgSize hp)]

theorem readMsg_boundary_witness :
    (⟨⟨[], [], []⟩, [0xde, 0xad, 0xb1, 0x75, 0x04, 0x70, 0x69, 0x6e, 0x67, 0xde, 0xad, 0xb1]⟩
        : stream).readMsg varintCodec
      = some ((some [0x70, 0x69, 0x6e, 0x67], none), ⟨⟨[], [], []⟩, [0xde, 0xad, 0xb1]⟩) :=
  readMsg_boundary varintCodec varintCodec_roundTrip [0x70, 0x69, 0x6e, 0x67] [0xde, 0xad, 0xb1]
    ⟨⟨[], [], []⟩, [0xde, 0xad, 0xb1, 0x75, 0x04, 0x70, 0x69, 0x6e, 0x67, 0xde, 0xad, 0xb1]⟩
    (by decide) (by decide)

/-- C6. Fragmentation independence: for a payload `p` of at most `67583`
bytes and any split of its frame into non-empty chunks, `readMsg` on a stream
with empty buffer whose connection delivers the chunks one per `Read` returns
`(p, nil)` with all chunks consumed and nothing left buffered, which is also
what it returns when the frame arrives in a single `Read`. -/
theorem readMsg_fragmented (c : WireCodec) (hc : c.RoundTrip) (hs : c.PrefixSafe)
    (p : List Byte) (chunks : List (List Byte)) (ws : List WriteResult) (wr : List Byte)
    (hp : p.length ≤ 67583) (hne : ∀ ch ∈ chunks, ch ≠ [])
    (hsplit : chunks.flatten = frame c p) :
    (⟨⟨deliver chunks, ws, wr⟩, []⟩ : stream).readMsg c
        = some ((some p, none), ⟨⟨[], ws, wr⟩, []⟩)
      ∧ (⟨⟨deliver [frame c p], ws, wr⟩, []⟩ : stream).readMsg c
        = some ((some p, none), ⟨⟨[], ws, wr⟩, []⟩) := by
  have key : ∀ chunks : List (List Byte), (∀ ch ∈ chunks, ch ≠ []) →
      chunks.flatten = frame c p →
      (⟨⟨deliver chunks, ws, wr⟩, []⟩ : stream).readMsg c
        = some ((some p, none), ⟨⟨[], ws, wr⟩, []⟩) := by
    intro chunks hne hsplit
    obtain ⟨chunks1, b1, h1, h2, h3⟩ :=
      readMsgLoop_chunks c hc hs ⟨deliver chunks, ws, wr⟩ p [] (le_streamMsgSize hp) chunks []
        (by simpa using hsplit)
    have hb1 : b1 = [] := (List.append_eq_nil.1 h2).1
    have hc1 : chunks1 = [] :=
      chunks_eq_nil chunks1 (fun ch hch => hne ch (h3.subset hch)) (List.append_eq_nil.1 h2).2
    subst hb1 hc1
    simpa [stream.readMsg, deliver] using h1
  refine ⟨key chunks hne hsplit, key [frame c p] ?_ (by simp)⟩
  intro ch hch
  have : ch = frame c p := by simpa using hch
  subst this
  simp [frame]

theorem readMsg_fragmented_witness :
    (⟨⟨deliver [[0xde, 0xad], [0xb1, 0x75, 0x04, 0x70], [0x69], [0x6e, 0x67]], [], []⟩, []⟩
        : stream).readMsg varintCodec
      = some ((some [0x70, 0x69, 0x6e, 0x67], none), ⟨⟨[], [], []⟩, []⟩) :=
  (readMsg_fragmented varintCodec varintCodec_roundTrip varintCodec_prefixSafe
    [0x70, 0x69, 0x6e, 0x67] [[0xde, 0xad], [0xb1, 0x75, 0x04, 0x70], [0x69], [0x6e, 0x67]]
    [] [] (by decide) (by decide) (by decide)).1

/-- C8. FIFO delivery: for payloads `ps`, each of at most `67583` bytes, when
the connection delivers the concatenation of their frames split into
non-empty chunks at arbitrary places, `ps.length` successive `readMsg` calls on
one stream that starts with an empty buffer return the payloads of `ps` in
order, each with a nil error, and consume all the chunks. -/
theorem readMsgs_fifo (c : WireCodec) (hc : c.RoundTrip) (hs : c.PrefixSafe)
    (ps : List (List Byte)) (chunks : List (List Byte)) (ws : List WriteResult)
    (wr : List Byte) (hps : ∀ p ∈ ps, p.length ≤ 67583) (hne : ∀ ch ∈ chunks, ch ≠ [])
    (hsplit : chunks.flatten = (ps.map (frame c)).flatten) :
    (⟨⟨deliver chunks, ws, wr⟩, []⟩ : stream).readMsgs c ps.length
      = some (ps.map (fun p => (some p, none)), ⟨⟨[], ws, wr⟩, []⟩) := by
  obtain ⟨chunks1, b1, h1, h2, h3⟩ :=
    readMsgs_chunks c hc hs ws wr ps (fun p hp => le_streamMsgSize (hps p hp)) chunks []
      (by simpa using hsplit)
  have hb1 : b1 = [] := (List.append_eq_nil.1 h2).1
  have hc1 : chunks1 = [] :=
    chunks_eq_nil chunks1 (fun ch hch => hne ch (h3.subset hch)) (List.append_eq_nil.1 h2).2
  subst hb1 hc1
  simpa [deliver] using h1

theorem readMsgs_fifo_witness :
    (⟨⟨deliver [[0xde, 0xad, 0xb1], [0x75, 0x02, 0x68, 0x69, 0xde], [0xad, 0xb1, 0x75, 0x00, 0xde],
          [0xad, 0xb1, 0x75, 0x01], [0x21]], [], []⟩, []⟩ : stream).readMsgs varintCodec 3
      = some ([(some [0x68, 0x69], none), (some [], none), (some [0x21], none)],
          ⟨⟨[], [], []⟩, []⟩) :=
  readMsgs_fifo varintCodec varintCodec_roundTrip varintCodec_prefixSafe
    [[0x68, 0x69], [], [0x21]]
    [[0xde, 0xad, 0xb1], [0x75, 0x02, 0x68, 0x69, 0xde], [0xad, 0xb1, 0x75, 0x00, 0xde],
      [0xad, 0xb1, 0x75, 0x01], [0x21]]
    [] [] (by decide) (by decide) (by decide)

/-- C9. Write success: when every `Write` of the run returns no error and a
count of at least 1, and the run has as many `Write` results as the frame has
bytes, `writeMsg(p)` returns `(len(p), nil)` and the bytes the connection
accepted during the call are exactly magic, encoded length and payload, in
order, whatever the counts. -/
theorem writeMsg_success (c : WireCodec)
    (hput : ∀ v out, c.wire_put_uint64 v out = out ++ c.encode v) (s : stream)
    (p : List Byte) (hok : ∀ w ∈ s.rwc.writes, w.err = none ∧ 1 ≤ w.n)
    (hlen : (frame c p).length ≤ s.rwc.writes.length) :
    ∃ s1, s.writeMsg c p = some (((p.length : Int), none), s1)
      ∧ s1.rwc.written = s.rwc.written ++ [0xde, 0xad, 0xb1, 0x75] ++ c.encode p.length ++ p
      ∧ s1.inputBuffer = s.inputBuffer ∧ s1.rwc.reads = s.rwc.reads := by
  have hsum : ∀ ws : List WriteResult, (∀ w ∈ ws, w.err = none ∧ 1 ≤ w.n) →
      ws.length ≤ (ws.map (·.n)).sum := by
    intro ws
    induction ws with
    | nil => intro _; simp
    | cons w rest ih =>
      intro h
      have h1 := (h w (List.mem_cons_self _ _)).2
      have h2 := ih (fun x hx => h x (List.mem_cons_of_mem _ hx))
      simp only [List.length_cons, List.map_cons, List.sum_cons]
      omega
  obtain ⟨ws1, h1⟩ := writeMsgLoop_flush s.rwc s.inputBuffer (frame c p)
    (4 + (c.encode p.length).length) p.length s.rwc.writes 0 s.rwc.written
    (fun w hw => (hok w hw).1) (by have := hsum _ hok; omega)
  refine ⟨_, (writeMsg_eq c hput s p).trans h1, ?_, rfl, rfl⟩
  simp [frame]

theorem writeMsg_success_witness :
    ∃ s1, (⟨⟨[], List.replicate 9 ⟨2, none⟩, []⟩, []⟩ : stream).writeMsg varintCodec
          [0x70, 0x69, 0x6e, 0x67] = some ((4, none), s1)
      ∧ s1.rwc.written = [0xde, 0xad, 0xb1, 0x75, 0x04, 0x70, 0x69, 0x6e, 0x67] := by
  obtain ⟨s1, h1, h2, _⟩ := writeMsg_success varintCodec varintCodec_roundTrip.put_append
    ⟨⟨[], List.replicate 9 ⟨2, none⟩, []⟩, []⟩ [0x70, 0x69, 0x6e, 0x67] (by decide) (by decide)
  exact ⟨s1, h1, h2⟩

/-- C10. Short-write accounting: when the `Write` results before the failing
one carry no error and their counts sum to less than the frame length (so the
failing `Write` is issued), and the failing `Write` returns count `n` and
error `e`, then with `bn` the sum of all these counts `writeMsg` returns
`(max(0, bn - headerLen), e)` where `headerLen = 4 + len(encode(len p))`, and
the connection has accepted the first `bn` bytes of the frame. -/
theorem writeMsg_short_write (c : WireCodec)
    (hput : ∀ v out, c.wire_put_uint64 v out = out ++ c.encode v) (s : stream)
    (p : List Byte) (pre post : List WriteResult) (n : Nat) (e : Error)
    (hws : s.rwc.writes = pre ++ ⟨n, some e⟩ :: post) (hpre : ∀ w ∈ pre, w.err = none)
    (hrun : (pre.map (·.n)).sum < (frame c p).length) :
    s.writeMsg c p
      = some ((max 0 ((((pre.map (·.n)).sum + n : Nat) : Int)
                  - ((4 + (c.encode p.length).length : Nat) : Int)), some e),
          ⟨{ s.rwc with writes := post,
                        written := s.rwc.written
                          ++ (frame c p).take ((pre.map (·.n)).sum + n) },
            s.inputBuffer⟩) := by
  rw [writeMsg_eq c hput s p, hws,
    writeMsgLoop_fail s.rwc s.inputBuffer (frame c p) _ p.length n e post pre 0 s.rwc.written
      hpre (by omega)]
  simp

theorem writeMsg_short_write_witness :
    ((⟨⟨[], [⟨5, none⟩, ⟨10, none⟩, ⟨20, some (Error.transport 1)⟩], []⟩, []⟩
          : stream).writeMsg varintCodec (List.replicate 100 0x61)).map Prod.fst
        = some (30, some (Error.transport 1))
      ∧ ((⟨⟨[], [⟨3, some (Error.transport 1)⟩], []⟩, []⟩
          : stream).writeMsg varintCodec (List.replicate 100 0x61)).map Prod.fst
        = some (0, some (Error.transport 1)) := by
  constructor
  · rw [writeMsg_short_write varintCodec varintCodec_roundTrip.put_append
      ⟨⟨[], [⟨5, none⟩, ⟨10, none⟩, ⟨20, some (Error.transport 1)⟩], []⟩, []⟩
      (List.replicate 100 0x61) [⟨5, none⟩, ⟨10, none⟩] [] 20 (Error.transport 1) rfl
      (by decide) (by decide)]
    decide
  · rw [writeMsg_short_write varintCodec varintCodec_roundTrip.put_append
      ⟨⟨[], [⟨3, some (Error.transport 1)⟩], []⟩, []⟩
      (List.replicate 100 0x61) [] [] 3 (Error.transport 1) rfl (by decide) (by decide)]
    decide

/-- C1. Round trip: for a payload `p` of at most `67583` bytes and a codec
with the round-trip law, when `writeMsg(p)` returns a nil error on a
connection that had accepted nothing before, and the bytes that connection
accepted are served to `readMsg` on a stream with empty buffer, `readMsg`
returns `(p, nil)`: so when they arrive in one `Read`, and, for a codec that
is safe on partial length encodings, when they arrive in any chunks. -/
theorem writeMsg_readMsg_roundTrip (c : WireCodec) (hc : c.RoundTrip) (p : List Byte)
    (w w1 : stream) (n : Int) (r : stream) (hp : p.length ≤ 67583)
    (hfresh : w.rwc.written = []) (hw : w.writeMsg c p = some ((n, none), w1))
    (hbuf : r.inputBuffer = []) :
    (∀ more, r.rwc.reads = ⟨w1.rwc.written, none⟩ :: more →
        r.readMsg c = some ((some p, none), ⟨{ r.rwc with reads := more }, []⟩))
      ∧ (c.PrefixSafe → ∀ chunks, chunks.flatten = w1.rwc.written →
          r.rwc.reads = deliver chunks →
          ∃ r1, r.readMsg c = some ((some p, none), r1) ∧ r1.inputBuffer = []) := by
  have hwr : w1.rwc.written = frame c p := by
    rw [writeMsg_eq c hc.put_append w p] at hw
    have := (writeMsgLoop_success _ _ _ _ _ _ _ _ _ _ hw).2
    simpa [hfresh] using this
  constructor
  · intro more hreads
    have hpos : (frame c p).length > 0 := by rw [frame_length]; omega
    unfold stream.readMsg
    rw [hbuf, hreads, hwr, readMsgLoop.eq_def]
    simp only [chop_short c [] (by simp), Bool.false_eq_true, if_false, hpos, if_true,
      List.nil_append]
    have := readMsgLoop_frame_append c hc r.rwc more p [] (le_streamMsgSize hp)
    simpa using this
  · intro hs chunks hsplit hreads
    obtain ⟨chunks1, b1, h1, h2, _⟩ :=
      readMsgLoop_chunks c hc hs r.rwc p [] (le_streamMsgSize hp) chunks []
        (by simpa [hwr] using hsplit)
    refine ⟨⟨{ r.rwc with reads := deliver chunks1 }, b1⟩, ?_, (List.append_eq_nil.1 h2).1⟩
    unfold stream.readMsg
    rw [hbuf, hreads]
    exact h1

theorem writeMsg_readMsg_roundTrip_witness :
    (⟨⟨[⟨[0xde, 0xad, 0xb1, 0x75, 0x04, 0x70, 0x69, 0x6e, 0x67], none⟩], [], []⟩, []⟩
        : stream).readMsg varintCodec
      = some ((some [0x70, 0x69, 0x6e, 0x67], none), ⟨⟨[], [], []⟩, []⟩) :=
  (writeMsg_readMsg_roundTrip varintCodec varintCodec_roundTrip [0x70, 0x69, 0x6e, 0x67]
    ⟨⟨[], [⟨6, none⟩, ⟨3, none⟩], []⟩, []⟩
    ⟨⟨[], [], [0xde, 0xad, 0xb1, 0x75, 0x04, 0x70, 0x69, 0x6e, 0x67]⟩, []⟩ 4
    ⟨⟨[⟨[0xde, 0xad, 0xb1, 0x75, 0x04, 0x70, 0x69, 0x6e, 0x67], none⟩], [], []⟩, []⟩
    (by decide) rfl (by decide) rfl).1 [] rfl

/-! ## Further claims about the framing codec -/

/-- C17. Non-success leaves the buffer alone: whenever `stream_chopMsg`
returns `ok = false`, with or without an error, the message it returns is nil
and `*bs` is the buffer it was given. -/
theorem chopMsg_not_ok_unchanged (c : WireCodec) (b : List Byte)
    (hok : (stream_chopMsg c b).ok = false) :
    (stream_chopMsg c b).msg = none ∧ (stream_chopMsg c b).bs = b := by
  rcases chop_cases c b with h | h | h | ⟨_, _, _, _, h⟩
  · rw [h]; exact ⟨rfl, rfl⟩
  · rw [h]; exact ⟨rfl, rfl⟩
  · rw [h]; exact ⟨rfl, rfl⟩
  · rw [h] at hok
    simp at hok

theorem chopMsg_not_ok_unchanged_witness :
    (stream_chopMsg varintCodec [0xde, 0xad, 0xb1, 0x75, 0x03, 0x68]).msg = none
      ∧ (stream_chopMsg varintCodec [0xde, 0xad, 0xb1, 0x75, 0x03, 0x68]).bs
        = [0xde, 0xad, 0xb1, 0x75, 0x03, 0x68] :=
  chopMsg_not_ok_unchanged varintCodec [0xde, 0xad, 0xb1, 0x75, 0x03, 0x68] (by decide)

/-- C19. Extraction makes progress: whenever `stream_chopMsg` returns
`ok = true` on a buffer `b`, it returns a message, the buffer left is a suffix
of `b` at least 5 bytes shorter than `b`, and message and buffer left together
are shorter than `b`. -/
theorem chopMsg_ok_progress (c : WireCodec) (b : List Byte)
    (hok : (stream_chopMsg c b).ok = true) :
    ∃ msg, (stream_chopMsg c b).msg = some msg
      ∧ (stream_chopMsg c b).bs <:+ b
      ∧ (stream_chopMsg c b).bs.length + 5 ≤ b.length
      ∧ msg.length + (stream_chopMsg c b).bs.length < b.length := by
  rcases chop_cases c b with h | h | h | ⟨_, _, hk, hlen, h⟩
  · rw [h] at hok; simp at hok
  · rw [h] at hok; simp at hok
  · rw [h] at hok; simp at hok
  · rw [h]
    refine ⟨_, rfl, List.drop_suffix _ _, ?_, ?_⟩
    · simp only [List.length_drop]; omega
    · simp only [List.length_drop, List.length_take]; omega

theorem chopMsg_ok_progress_witness :
    ∃ msg, (stream_chopMsg varintCodec [0xde, 0xad, 0xb1, 0x75, 0x00, 0x21]).msg = some msg
      ∧ (stream_chopMsg varintCodec [0xde, 0xad, 0xb1, 0x75, 0x00, 0x21]).bs
          <:+ [0xde, 0xad, 0xb1, 0x75, 0x00, 0x21]
      ∧ (stream_chopMsg varintCodec [0xde, 0xad, 0xb1, 0x75, 0x00, 0x21]).bs.length + 5
          ≤ [0xde, 0xad, 0xb1, 0x75, 0x00, (0x21 : Byte)].length
      ∧ msg.length + (stream_chopMsg varintCodec [0xde, 0xad, 0xb1, 0x75, 0x00, 0x21]).bs.length
          < [0xde, 0xad, 0xb1, 0x75, 0x00, (0x21 : Byte)].length :=
  chopMsg_ok_progress varintCodec [0xde, 0xad, 0xb1, 0x75, 0x00, 0x21] (by decide)

/-! ## Further claims about the read path -/

/-- C13. Transport error and no partial data: when the buffer holds no
complete message and no corruption, as it does when it holds a proper part of
a frame, and the next `Read` gives 0 bytes and an error `e`, `readMsg` returns
`(nil, e)` with `e` as the connection gave it; and whatever `readMsg` returns
is either a message with a nil error, the message being one that
`stream_chopMsg` cut complete out of the bytes buffered and read, or a nil
message with a non-nil error. -/
theorem readMsg_error_or_message (c : WireCodec) (s : stream) :
    (∀ e rest, (stream_chopMsg c s.inputBuffer).err = none →
        (stream_chopMsg c s.inputBuffer).ok = false →
        s.rwc.reads = ⟨[], some e⟩ :: rest →
        s.readMsg c = some ((none, some e), ⟨{ s.rwc with reads := rest }, s.inputBuffer⟩))
      ∧ (∀ p, c.RoundTrip → c.PrefixSafe → p.length ≤ 67583 →
          s.inputBuffer <+: frame c p → s.inputBuffer ≠ frame c p →
          (stream_chopMsg c s.inputBuffer).err = none
            ∧ (stream_chopMsg c s.inputBuffer).ok = false)
      ∧ (∀ res s1, s.readMsg c = some (res, s1) →
          (∃ msg k, res = (some msg, none)
              ∧ s1.rwc.reads = s.rwc.reads.drop k
              ∧ stream_chopMsg c
                  (s.inputBuffer ++ ((s.rwc.reads.take k).map (·.data)).flatten)
                = ⟨some msg, true, none, s1.inputBuffer⟩)
            ∨ ∃ e, res = (none, some e)) := by
  refine ⟨?_, ?_, ?_⟩
  · intro e rest herr hok hreads
    have hinc : stream_chopMsg c s.inputBuffer = ⟨none, false, none, s.inputBuffer⟩ := by
      rcases chop_cases c s.inputBuffer with h | h | h | ⟨_, _, _, _, h⟩
      · exact h
      · rw [h] at herr; simp at herr
      · rw [h] at herr; simp at herr
      · rw [h] at hok; simp at hok
    unfold stream.readMsg
    rw [hreads, readMsgLoop_incomplete c s.rwc _ rest _ hinc]
    simp
  · intro p hc hs hp hpre hne
    have hlt : s.inputBuffer.length < (frame c p).length := by
      rcases Nat.lt_or_ge s.inputBuffer.length (frame c p).length with h | h
      · exact h
      · exact absurd (hpre.eq_of_length_le h) hne
    rw [chop_frame_part c hc hs p _ (le_streamMsgSize hp) hpre hlt]
    exact ⟨rfl, rfl⟩
  · intro res s1 h
    obtain ⟨k, hk, hres⟩ := readMsgLoop_result c s.rwc s.rwc.reads s.inputBuffer res s1 h
    rcases hres with ⟨msg, h1, h2⟩ | ⟨e, h1⟩
    · exact Or.inl ⟨msg, k, h1, hk, h2⟩
    · exact Or.inr ⟨e, h1⟩

theorem readMsg_error_or_message_witness :
    (⟨⟨[⟨[], some (Error.transport 7)⟩], [], []⟩, [0xde, 0xad, 0xb1, 0x75, 0x04, 0x70]⟩
        : stream).readMsg varintCodec
      = some ((none, some (Error.transport 7)),
          ⟨⟨[], [], []⟩, [0xde, 0xad, 0xb1, 0x75, 0x04, 0x70]⟩) :=
  (readMsg_error_or_message varintCodec
    ⟨⟨[⟨[], some (Error.transport 7)⟩], [], []⟩, [0xde, 0xad, 0xb1, 0x75, 0x04, 0x70]⟩).1
    (Error.transport 7) [] (by decide) (by decide) rfl

/-- C16. Corruption is fatal in `readMsg`: whenever `stream_chopMsg` returns an
error `e` on the current accumulation buffer, `readMsg` returns
`(nil, "message error: e")` at once, and the stream is as before: no `Read`
result is consumed and the accumulation buffer is unchanged. -/
theorem readMsg_corrupt_fatal (c : WireCodec) (s : stream) (e : Error)
    (herr : (stream_chopMsg c s.inputBuffer).err = some e) :
    s.readMsg c = some ((none, some (Error.messageError e)), s)
      ∧ (e = Error.badMessage ∨ e = Error.oversizedMessage) := by
  constructor
  · unfold stream.readMsg
    rw [readMsgLoop.eq_def]
    simp only [herr]
  · rcases chop_cases c s.inputBuffer with h | h | h | ⟨_, _, _, _, h⟩
    · rw [h] at herr; simp at herr
    · rw [h] at herr; simp at herr; exact Or.inl herr.symm
    · rw [h] at herr; simp at herr; exact Or.inr herr.symm
    · rw [h] at herr; simp at herr

theorem readMsg_corrupt_fatal_witness :
    (⟨⟨[⟨[0xde, 0xad, 0xb1, 0x75, 0x00], none⟩], [], []⟩, [0xde, 0xad, 0xb1, 0x76, 0x00]⟩
        : stream).readMsg varintCodec
      = some ((none, some (Error.messageError Error.badMessage)),
          ⟨⟨[⟨[0xde, 0xad, 0xb1, 0x75, 0x00], none⟩], [], []⟩,
            [0xde, 0xad, 0xb1, 0x76, 0x00]⟩) :=
  (readMsg_corrupt_fatal varintCodec
    ⟨⟨[⟨[0xde, 0xad, 0xb1, 0x75, 0x00], none⟩], [], []⟩, [0xde, 0xad, 0xb1, 0x76, 0x00]⟩
    Error.badMessage (by decide)).1

/-- C18. Data takes priority over an accompanying error: when the buffer holds
no complete message and no corruption and the next `Read` gives `n > 0` bytes
together with an error, the loop goes on with the bytes appended to the buffer
and the error dropped; and when the buffer so extended starts with the frame
of a payload `p` of at most `67583` bytes, `readMsg` returns `(p, nil)`. -/
theorem readMsg_data_before_error (c : WireCodec) (s : stream) (d : List Byte) (e : Error)
    (rest : List ReadResult) (herr : (stream_chopMsg c s.inputBuffer).err = none)
    (hok : (stream_chopMsg c s.inputBuffer).ok = false)
    (hreads : s.rwc.reads = ⟨d, some e⟩ :: rest) (hd : d ≠ []) :
    s.readMsg c = readMsgLoop c s.rwc rest (s.inputBuffer ++ d)
      ∧ (∀ p t, c.RoundTrip → p.length ≤ 67583 → s.inputBuffer ++ d = frame c p ++ t →
          s.readMsg c = some ((some p, none), ⟨{ s.rwc with reads := rest }, t⟩)) := by
  have hinc : stream_chopMsg c s.inputBuffer = ⟨none, false, none, s.inputBuffer⟩ := by
    rcases chop_cases c s.inputBuffer with h | h | h | ⟨_, _, _, _, h⟩
    · exact h
    · rw [h] at herr; simp at herr
    · rw [h] at herr; simp at herr
    · rw [h] at hok; simp at hok
  have hpos : d.length > 0 := List.length_pos.2 hd
  have hstep : s.readMsg c = readMsgLoop c s.rwc rest (s.inputBuffer ++ d) := by
    unfold stream.readMsg
    rw [hreads, readMsgLoop_incomplete c s.rwc _ rest _ hinc]
    simp only [hpos, if_true]
  refine ⟨hstep, ?_⟩
  intro p t hc hp hframe
  rw [hstep, hframe, readMsgLoop_frame_append c hc s.rwc rest p t (le_streamMsgSize hp)]

theorem readMsg_data_before_error_witness :
    (⟨⟨[⟨[0x69, 0x6e, 0x67], some (Error.transport 1)⟩], [], []⟩,
          [0xde, 0xad, 0xb1, 0x75, 0x04, 0x70]⟩ : stream).readMsg varintCodec
      = some ((some [0x70, 0x69, 0x6e, 0x67], none), ⟨⟨[], [], []⟩, []⟩) :=
  (readMsg_data_before_error varintCodec
    ⟨⟨[⟨[0x69, 0x6e, 0x67], some (Error.transport 1)⟩], [], []⟩,
      [0xde, 0xad, 0xb1, 0x75, 0x04, 0x70]⟩
    [0x69, 0x6e, 0x67] (Error.transport 1) [] (by decide) (by decide) rfl (by decide)).2
    [0x70, 0x69, 0x6e, 0x67] [] varintCodec_roundTrip (by decide) (by decide)

/-- C15. Concrete scenario: on a connection whose `Write` calls succeed,
`writeMsg("ping")` returns `(4, nil)` and emits `DE AD B1 75`, the encoding of
`4` and `70 69 6E 67`; and `readMsg` on a stream with empty buffer whose
connection delivers that byte sequence, in one `Read` or, for a codec safe on
partial length encodings, in any non-empty chunks, returns the payload
`70 69 6E 67` and a nil error. -/
theorem ping_scenario (c : WireCodec) (hc : c.RoundTrip) (s : stream)
    (hok : ∀ w ∈ s.rwc.writes, w.err = none ∧ 1 ≤ w.n)
    (hlen : 8 + (c.encode 4).length ≤ s.rwc.writes.length) :
    (∃ s1, s.writeMsg c [0x70, 0x69, 0x6e, 0x67] = some ((4, none), s1)
        ∧ s1.rwc.written
          = s.rwc.written ++ [0xde, 0xad, 0xb1, 0x75] ++ c.encode 4 ++ [0x70, 0x69, 0x6e, 0x67])
      ∧ (∀ (rwc : Conn) (more : List ReadResult),
          (⟨{ rwc with reads := ⟨[0xde, 0xad, 0xb1, 0x75] ++ c.encode 4
                ++ [0x70, 0x69, 0x6e, 0x67], none⟩ :: more }, []⟩ : stream).readMsg c
            = some ((some [0x70, 0x69, 0x6e, 0x67], none),
                ⟨{ rwc with reads := more }, []⟩))
      ∧ (c.PrefixSafe → ∀ (rwc : Conn) (chunks : List (List Byte)),
          (∀ ch ∈ chunks, ch ≠ []) →
          chunks.flatten = [0xde, 0xad, 0xb1, 0x75] ++ c.encode 4 ++ [0x70, 0x69, 0x6e, 0x67] →
          (⟨{ rwc with reads := deliver chunks }, []⟩ : stream).readMsg c
            = some ((some [0x70, 0x69, 0x6e, 0x67], none),
                ⟨{ rwc with reads := [] }, []⟩)) := by
  have hp : ([0x70, 0x69, 0x6e, 0x67] : List Byte).length ≤ streamMsgSize := by
    simp [streamMsgSize]
  have hframe : frame c [0x70, 0x69, 0x6e, 0x67]
      = [0xde, 0xad, 0xb1, 0x75] ++ c.encode 4 ++ [0x70, 0x69, 0x6e, 0x67] := rfl
  refine ⟨?_, ?_, ?_⟩
  · have hsum : ∀ ws : List WriteResult, (∀ w ∈ ws, w.err = none ∧ 1 ≤ w.n) →
        ws.length ≤ (ws.map (·.n)).sum := by
      intro ws
      induction ws with
      | nil => intro _; simp
      | cons w rest ih =>
        intro h
        have h1 := (h w (List.mem_cons_self _ _)).2
        have h2 := ih (fun x hx => h x (List.mem_cons_of_mem _ hx))
        simp only [List.length_cons, List.map_cons, List.sum_cons]
        omega
    have hfl : (frame c [0x70, 0x69, 0x6e, 0x67]).length = 8 + (c.encode 4).length := by
      rw [frame_length]; simp; omega
    obtain ⟨ws1, h1⟩ := writeMsgLoop_flush s.rwc s.inputBuffer (frame c [0x70, 0x69, 0x6e, 0x67])
      (4 + (c.encode 4).length) 4 s.rwc.writes 0 s.rwc.written
      (fun w hw => (hok w hw).1) (by have := hsum _ hok; omega)
    refine ⟨_, (writeMsg_eq c hc.put_append s _).trans h1, ?_⟩
    simp [frame]
  · intro rwc more
    unfold stream.readMsg
    rw [← hframe]
    exact readMsgLoop_whole_frame c hc _ none more _ hp
  · intro hs rwc chunks hne hsplit
    obtain ⟨chunks1, b1, h1, h2, h3⟩ :=
      readMsgLoop_chunks c hc hs { rwc with reads := deliver chunks } [0x70, 0x69, 0x6e, 0x67]
        [] hp chunks [] (by simpa [hframe] using hsplit)
    have hb1 : b1 = [] := (List.append_eq_nil.1 h2).1
    have hc1 : chunks1 = [] :=
      chunks_eq_nil chunks1 (fun ch hch => hne ch (h3.subset hch)) (List.append_eq_nil.1 h2).2
    subst hb1 hc1
    simpa [stream.readMsg, deliver] using h1

theorem ping_scenario_witness :
    (∃ s1, (⟨⟨[], List.replicate 9 ⟨4, none⟩, []⟩, []⟩ : stream).writeMsg varintCodec
          [0x70, 0x69, 0x6e, 0x67] = some ((4, none), s1)
        ∧ s1.rwc.written = [0xde, 0xad, 0xb1, 0x75, 0x04, 0x70, 0x69, 0x6e, 0x67])
      ∧ (⟨⟨[⟨[0xde, 0xad, 0xb1, 0x75, 0x04, 0x70, 0x69, 0x6e, 0x67], none⟩], [], []⟩, []⟩
          : stream).readMsg varintCodec
        = some ((some [0x70, 0x69, 0x6e, 0x67], none), ⟨⟨[], [], []⟩, []⟩) := by
  have h := ping_scenario varintCodec varintCodec_roundTrip
    ⟨⟨[], List.replicate 9 ⟨4, none⟩, []⟩, []⟩ (by decide) (by decide)
  exact ⟨h.1, h.2.1 ⟨[], [], []⟩ []⟩

/-! ## The metadata pass-through -/

/-- C11, on the code: with `metaBytes = 01 02 03` and a connection that
accepts 2 bytes per `Write` without error, `_sendMetaBytes` hands the whole
slice to the second `Write` again, returns nil, and the connection has
accepted `01 02 01 02`, not `01 02 03`. -/
theorem sendMetaBytes_short_write_repeats :
    (⟨⟨[], [⟨2, none⟩, ⟨2, none⟩], []⟩, []⟩ : stream)._sendMetaBytes [0x01, 0x02, 0x03]
        = some (none, ⟨⟨[], [], [0x01, 0x02, 0x01, 0x02]⟩, []⟩)
      ∧ ([0x01, 0x02, 0x01, 0x02] : List Byte) ≠ [0x01, 0x02, 0x03] := by
  decide

/-- C12, on the code: with metadata of `n + 2` bytes, when the first `Read`
delivers `n + 1` bytes and the second, which is offered the whole of `frag`
again, delivers `n + 2` bytes, `_recvMetaBytes` returns all `2 * n + 3` bytes,
more than the `n + 2` of the metadata. -/
theorem recvMetaBytes_reads_past_length (n : Nat) (rwc : Conn) (more : List ReadResult) :
    (⟨{ rwc with reads := ⟨List.replicate (n + 1) 0x01, none⟩
          :: ⟨List.replicate (n + 2) 0x02, none⟩ :: more }, []⟩ : stream)._recvMetaBytes (n + 2)
        = some ((some (List.replicate (n + 1) 0x01 ++ List.replicate (n + 2) 0x02), none),
            ⟨{ rwc with reads := more }, []⟩)
      ∧ n + 2 < (List.replicate (n + 1) (0x01 : Byte) ++ List.replicate (n + 2) 0x02).length := by
  constructor
  · unfold stream._recvMetaBytes
    rw [recvMetaBytesLoop.eq_def]
    simp only [List.length_nil, Nat.zero_lt_succ, if_true, List.nil_append]
    rw [recvMetaBytesLoop.eq_def]
    simp only [List.length_replicate, Nat.lt_succ_self, if_true]
    rw [recvMetaBytesLoop.eq_def]
    have h : ¬ ((List.replicate (n + 1) (0x01 : Byte) ++ List.replicate (n + 2) 0x02).length
        < n + 2) := by
      simp only [List.length_append, List.length_replicate]; omega
    simp only [h, if_false]
  · simp only [List.length_append, List.length_replicate]; omega

/-! ## Further claims about the write path -/

/-- C20. Reported write count is bounded: when every `Write` the loop makes
returns a count `n` with `0 ≤ n ≤ len(buf)` for the slice it was offered, the
integer `writeMsg(p)` returns lies in `[0, len(p)]` whether the error is nil
or not, and is `len(p)` when the error is nil; and a run with a failing `Write`
does make `writeMsg` return. -/
theorem writeMsg_count_bounded (c : WireCodec) (s : stream) (p : List Byte)
    (hwithin : writesWithin
      ((c.wire_put_uint64 p.length [0xde, 0xad, 0xb1, 0x75]).length + p.length)
      s.rwc.writes 0 = true) :
    (∀ k e s1, s.writeMsg c p = some ((k, e), s1) →
        0 ≤ k ∧ k ≤ (p.length : Int) ∧ (e = none → k = (p.length : Int)))
      ∧ ((∃ w ∈ s.rwc.writes, w.err ≠ none) → (s.writeMsg c p).isSome = true) := by
  constructor
  · intro k e s1 h
    rw [writeMsg_unfold] at h
    exact writeMsgLoop_bounded s.rwc s.inputBuffer _ _ p.length (by simp) _ _ _ _ _ _
      (by simpa using hwithin) h
  · intro h
    rw [writeMsg_unfold]
    exact writeMsgLoop_returns _ _ _ _ _ _ _ _ h

theorem writeMsg_count_bounded_witness :
    ((⟨⟨[], [⟨3, none⟩, ⟨4, some (Error.transport 1)⟩], []⟩, []⟩ : stream).writeMsg varintCodec
          [0x70, 0x69, 0x6e, 0x67]).map Prod.fst = some (2, some (Error.transport 1))
      ∧ (0 : Int) ≤ 2 ∧ (2 : Int) ≤ (([0x70, 0x69, 0x6e, 0x67] : List Byte).length : Int) := by
  have h := (writeMsg_count_bounded varintCodec
    ⟨⟨[], [⟨3, none⟩, ⟨4, some (Error.transport 1)⟩], []⟩, []⟩ [0x70, 0x69, 0x6e, 0x67]
    (by decide)).1 2 (some (Error.transport 1))
    ⟨⟨[], [], [0xde, 0xad, 0xb1, 0x75, 0x04, 0x70, 0x69]⟩, []⟩ (by decide)
  exact ⟨by decide, h.1, h.2.1⟩

/-! ## Totality of the framing codec -/

theorem wrapInt_eq (x : Int) (h0 : 0 ≤ x) (h1 : x < 2 ^ 63) : wrapInt x = x := by
  unfold wrapInt
  omega

theorem sliceChecked_ok (a : List Byte) (lo hi : Nat) (h1 : lo ≤ hi) (h2 : hi ≤ a.length) :
    sliceChecked a (lo : Int) (hi : Int) = .ok ((a.take hi).drop lo) := by
  have h : (0 : Int) ≤ lo ∧ (lo : Int) ≤ hi ∧ (hi : Int) ≤ a.length := by omega
  simp only [sliceChecked, h, and_self, if_true, Int.toNat_ofNat]

theorem indexChecked_of_get? (a : List Byte) (idx : Nat) (b : Byte)
    (h : a.get? idx = some b) : indexChecked a (idx : Int) = .ok b := by
  have hlt : idx < a.length := by
    by_contra hge
    rw [List.get?_eq_none.2 (by omega)] at h
    simp at h
  have hb : (0 : Int) ≤ idx ∧ (idx : Int) < a.length := by omega
  simp only [indexChecked, hb, and_self, if_true, Int.toNat_ofNat, h]

/-- Over indices that lie within the buffer and the magic, the checked loop
meets no fault and finds a mismatch exactly when one of the indices has one. -/
theorem magicLoopChecked_any (bs : List Byte) :
    ∀ idxs : List Nat, (∀ i ∈ idxs, i < bs.length ∧ i < streamMsg.length) →
      magicLoopChecked bs idxs
        = .ok (idxs.any fun idx => bs.get? idx != streamMsg.get? idx) := by
  intro idxs
  induction idxs with
  | nil => intro _; rfl
  | cons idx rest ih =>
    intro h
    obtain ⟨h1, h2⟩ := h idx (List.mem_cons_self _ _)
    obtain ⟨b, hb⟩ : ∃ b, bs.get? idx = some b := ⟨_, List.get?_eq_get h1⟩
    obtain ⟨m, hm⟩ : ∃ m, streamMsg.get? idx = some m := ⟨_, List.get?_eq_get h2⟩
    rw [magicLoopChecked, indexChecked_of_get? bs idx b hb,
      indexChecked_of_get? streamMsg idx m hm]
    simp only [List.any_cons, hb, hm]
    rw [ih (fun i hi => h i (List.mem_cons_of_mem _ hi))]
    by_cases heq : b = m
    · simp [heq]
    · simp [heq]

/-- On a buffer of at least 4 bytes every index of the magic loop is in
range, and the loop finds what `magicMismatch` finds. -/
theorem magicLoopChecked_eq (bs : List Byte) (h : 4 ≤ bs.length) :
    magicLoopChecked bs (List.range streamMsg.length) = .ok (magicMismatch bs) := by
  rw [magicLoopChecked_any bs _ (fun i hi => by
    have := List.mem_range.1 hi
    rw [streamMsg_length] at this ⊢
    omega)]
  rfl

/-- After the decoder: with a decoded byte count `k` that fits the buffer, no
slice or conversion faults, and the result is that of the unchecked code. -/
theorem chopBodyChecked_ok (bs : List Byte) (v k : Nat)
    (hlen : (bs.length : Int) + 67583 < 2 ^ 63) (hk : 4 + k ≤ bs.length) :
    chopBodyChecked bs v (k : Int)
      = .ok (if v > streamMsgSize then
          ⟨none, false, some Error.oversizedMessage, bs⟩
        else if k = 0 ∨ bs.length < 4 + k + v then
          ⟨none, false, none, bs⟩
        else
          ⟨some ((bs.take (4 + k + v)).drop (4 + k)), true, none, bs.drop (4 + k + v)⟩) := by
  unfold chopBodyChecked
  by_cases hv : v > streamMsgSize
  · rw [if_pos hv, if_pos hv]
  · have hv' : v ≤ 67583 := by unfold streamMsgSize at hv; omega
    have hconv : intOfUint64Checked v = .ok (v : Int) := by
      unfold intOfUint64Checked
      rw [if_pos (wrapInt_eq (v : Int) (by omega) (by omega))]
    have hbegin : wrapInt ((streamMsg.length : Int) + (k : Int)) = ((4 + k : Nat) : Int) := by
      rw [streamMsg_length, wrapInt_eq _ (by omega) (by omega)]
      push_cast; rfl
    have hend : wrapInt (((4 + k : Nat) : Int) + (v : Int)) = ((4 + k + v : Nat) : Int) := by
      rw [wrapInt_eq _ (by omega) (by omega)]
      push_cast; rfl
    rw [if_neg hv, if_neg hv]
    simp only [hconv, hbegin, hend]
    by_cases hcond : k = 0 ∨ bs.length < 4 + k + v
    · have hb : ((k : Int) == 0 || decide ((bs.length : Int) < ((4 + k + v : Nat) : Int)))
          = true := by
        rw [Bool.or_eq_true]
        rcases hcond with h | h
        · left; simp [h]
        · have : (bs.length : Int) < ((4 + k + v : Nat) : Int) := by omega
          right; exact decide_eq_true this
      rw [if_pos hb, if_pos hcond]
    · have hb : ¬ ((k : Int) == 0 || decide ((bs.length : Int) < ((4 + k + v : Nat) : Int)))
          = true := by
        have h1 : ¬ (k : Int) = 0 := by omega
        have h2 : ¬ (bs.length : Int) < ((4 + k + v : Nat) : Int) := by omega
        rw [Bool.or_eq_true]
        rintro (h | h)
        · exact h1 (by simpa using h)
        · exact h2 (of_decide_eq_true h)
      rw [if_neg hb, if_neg hcond,
        sliceChecked_ok bs (4 + k) (4 + k + v) (by omega) (by omega),
        sliceChecked_ok bs (4 + k + v) bs.length (by omega) (le_refl _), List.take_length]

/-- C14. Totality of the codec: for every buffer (of a length `len` with
`len + 67583` within the range of `int`) and every decoder that, when called,
returns a byte count between 0 and `len - 4`, the checked `stream_chopMsg`
ends without a fault: every index and slice expression is in bounds and
`int(msgLen)` keeps its value; and its result is the one `stream_chopMsg`
computes. -/
theorem chopMsg_checked_total (dec : List Byte → Nat × Int) (c : WireCodec) (bs : List Byte)
    (hc : ∀ x, c.wire_decode_uint64 x = ((dec x).1, (dec x).2.toNat))
    (hlen : (bs.length : Int) + 67583 < 2 ^ 63)
    (hdec : 4 ≤ bs.length →
      0 ≤ (dec (bs.drop 4)).2 ∧ (dec (bs.drop 4)).2 ≤ (bs.length : Int) - 4) :
    stream_chopMsg_checked dec bs = .ok (stream_chopMsg c bs) := by
  by_cases h4 : bs.length < 4
  · rw [chop_short c bs h4]
    have : (bs.length : Int) < (streamMsg.length : Int) := by
      rw [streamMsg_length]; omega
    unfold stream_chopMsg_checked
    rw [if_pos this]
  · have hnot : ¬ (bs.length : Int) < (streamMsg.length : Int) := by
      rw [streamMsg_length]; omega
    have hslice : sliceChecked bs (streamMsg.length : Int) (bs.length : Int)
        = .ok (bs.drop 4) := by
      rw [sliceChecked_ok bs _ _ (by rw [streamMsg_length]; omega) (le_refl _),
        List.take_length, streamMsg_length]
    obtain ⟨hk0, hk1⟩ := hdec (by omega)
    unfold stream_chopMsg_checked
    rw [if_neg hnot, magicLoopChecked_eq bs (by omega)]
    cases hm : magicMismatch bs with
    | true =>
      simp [stream_chopMsg, streamMsg_length, h4, hm]
    | false =>
      have htake := (magicMismatch_eq_false_iff bs (by omega)).1 hm
      rw [chop_magic c bs (by omega) htake, hc, hslice]
      show chopBodyChecked bs (dec (bs.drop 4)).1 (dec (bs.drop 4)).2 = _
      generalize dec (bs.drop 4) = r at hk0 hk1 ⊢
      obtain ⟨v, k⟩ := r
      simp only at hk0 hk1 ⊢
      lift k to ℕ using hk0
      rw [chopBodyChecked_ok bs v k hlen (by omega)]
      simp only [Int.toNat_ofNat]

theorem chopMsg_checked_total_witness :
    stream_chopMsg_checked (fun x => ((varintDecode x 0 0).1, ((varintDecode x 0 0).2 : Int)))
        [0xde, 0xad, 0xb1, 0x75, 0x02, 0x68, 0x69, 0x21]
      = .ok ⟨some [0x68, 0x69], true, none, [0x21]⟩ :=
  chopMsg_checked_total (fun x => ((varintDecode x 0 0).1, ((varintDecode x 0 0).2 : Int)))
    varintCodec [0xde, 0xad, 0xb1, 0x75, 0x02, 0x68, 0x69, 0x21] (fun _ => rfl)
    (by decide) (fun _ => by decide)

end Yggdrasil
